import Mathlib

/-!
Verification development for the vchain-demo repository (pairing-based set
accumulators over BLS12-381 with an authenticated chain index).

Modelling conventions used throughout this file:

* The BLS12-381 groups `G1`, `G2`, `GT` are cyclic of prime order `r` and are
  generated by `g₁`, `g₂`, `e(g₁,g₂)`.  Every group element manipulated by the
  code is produced as a power of the corresponding generator, so group elements
  are modelled by their exponents in the scalar field: `g^x ↦ x`, group
  addition becomes field addition, multi-scalar multiplication becomes a sum of
  scalar products, and the pairing becomes multiplication of exponents
  (`e(g₁^a, g₂^b) = e(g₁,g₂)^(a·b)`).  Equality of group elements is equality
  of exponents because the groups have prime order `r`.
* The scalar field `Fr` is modelled as `ZMod r` (for statements that need the
  integer representative `val` of a field element) or as an arbitrary
  `Field K` (for the polynomial-based ACC1 paths, which never inspect
  representatives).  Concrete witnesses instantiate these at the prime 101 via
  the kernel-computable field `F101` below.
* The fixed-base power tables (`FixedBaseCurvePow`, `FixedBaseScalarPow`) are
  modelled by their exact contract `apply x = base ^ x`; their windowed-comb
  internals are not claimed by the specification.
* `Fr::from(i as u64)` for a `usize` index `i` equals `i mod r`; since every
  index in the code is bounded by a vector length (`< 2^64 < r`), the model
  writes the exponent `s^i` directly.
* Rust `HashMap`-based multisets are modelled by association lists together
  with the key-lookup function `lk`; `HashMap` equality is lookup equality.
* Loops are modelled by structural recursion on an explicit counter that the
  surrounding code bounds (documented at each definition); recursions whose
  step count is not syntactically evident take a fuel argument and return
  `none` on exhaustion, with a sufficiency lemma showing the fuel chosen by
  the top-level entry point can not run out.
-/

set_option maxRecDepth 40000
set_option linter.unusedSectionVars false

namespace VChainProof

/-! ## A small kernel-computable prime field used by concrete witnesses -/

/-- The field with 101 elements, with an inverse (`x⁻¹ = x ^ 99`, computed on
representatives) that reduces inside the kernel, so that `decide` can evaluate
polynomial divisions on concrete inputs. -/
abbrev F101 := Fin 101

instance instF101Inv : Inv F101 :=
  ⟨fun x => ⟨x.val ^ 99 % 101, Nat.mod_lt _ (by norm_num)⟩⟩

instance instF101Field : Field F101 :=
  Field.ofMinimalAxioms F101
    (fun a b c => add_assoc a b c)
    (fun a => zero_add a)
    (fun a => neg_add_cancel a)
    (fun a b c => mul_assoc a b c)
    (fun a b => mul_comm a b)
    (fun a => one_mul a)
    (by decide)
    (by decide)
    (fun a b c => mul_add a b c)
    ⟨0, 1, by decide⟩

instance : Fact (Nat.Prime 101) := ⟨by norm_num⟩

/-! ## Dense polynomials as coefficient lists (low degree first)

Model of `ff_fft::DensePolynomial` as used by `src/vchain/src/acc`.  The
library keeps coefficient vectors free of trailing (high-degree) zeros; `trim`
restores that invariant after arithmetic. -/

namespace PolyL

variable {K : Type} [Field K] [DecidableEq K]

/-- Remove trailing (high-degree) zero coefficients. -/
def trim : List K → List K
  | [] => []
  | a :: p => if trim p = [] then (if a = 0 then [] else [a]) else a :: trim p

theorem trim_cons (a : K) (p : List K) :
    trim (a :: p) = if trim p = [] then (if a = 0 then [] else [a]) else a :: trim p := rfl

/-- `DensePolynomial::is_zero`: all coefficients vanish. -/
def isZero (p : List K) : Bool := p.all (fun c => decide (c = 0))

/-- `DensePolynomial::degree` on a trimmed coefficient vector. -/
def degree (p : List K) : ℕ := (trim p).length - 1

/-- Pointwise addition, keeping the longer tail. -/
def addAux : List K → List K → List K
  | [], q => q
  | p, [] => p
  | a :: p, b :: q => (a + b) :: addAux p q

/-- Polynomial addition (result trimmed). -/
def polyAdd (p q : List K) : List K := trim (addAux p q)

/-- Polynomial negation. -/
def polyNeg (p : List K) : List K := p.map (fun c => -c)

/-- Polynomial subtraction (result trimmed). -/
def polySub (p q : List K) : List K := polyAdd p (polyNeg q)

/-- Multiplication by a scalar. -/
def polyCMul (c : K) (p : List K) : List K := p.map (fun a => c * a)

/-- Multiplication by `X^k`. -/
def mulXpow (k : ℕ) (p : List K) : List K := List.replicate k 0 ++ p

/-- Schoolbook polynomial multiplication (result trimmed). -/
def polyMul : List K → List K → List K
  | [], _ => []
  | a :: p, q => polyAdd (polyCMul a q) (0 :: polyMul p q)

/-- Leading coefficient of a trimmed coefficient vector. -/
def leadCoeff (p : List K) : K := p.getLast?.getD 0

/-- Interpretation of a coefficient list as a `Polynomial`. -/
noncomputable def toPoly (p : List K) : Polynomial K :=
  p.foldr (fun c q => Polynomial.C c + Polynomial.X * q) 0

open Polynomial

@[simp] theorem toPoly_nil : toPoly ([] : List K) = 0 := rfl

@[simp] theorem toPoly_cons (a : K) (p : List K) :
    toPoly (a :: p) = C a + X * toPoly p := rfl

theorem coeff_toPoly (p : List K) (n : ℕ) : (toPoly p).coeff n = p.getD n 0 := by
  induction p generalizing n with
  | nil => simp [toPoly]
  | cons a p ih =>
    cases n with
    | zero => simp [toPoly_cons, coeff_add, coeff_C, mul_comm X (toPoly p), coeff_mul_X_zero]
    | succ n =>
      simp [toPoly_cons, coeff_add, coeff_C, coeff_X_mul, ih]

theorem toPoly_eq_zero_iff {p : List K} : toPoly p = 0 ↔ ∀ n, p.getD n 0 = 0 := by
  constructor
  · intro h n
    have h2 := coeff_toPoly p n
    rw [h, Polynomial.coeff_zero] at h2
    exact h2.symm
  · intro h
    ext n
    rw [coeff_toPoly, h n, Polynomial.coeff_zero]

theorem getD_eq_zero_of_length_le {p : List K} {n : ℕ} (h : p.length ≤ n) :
    p.getD n 0 = 0 := by
  induction p generalizing n with
  | nil => simp
  | cons a p ih =>
    cases n with
    | zero => simp at h
    | succ n =>
      rw [List.getD_cons_succ]
      exact ih (by simpa using h)

theorem trim_getD (p : List K) (n : ℕ) : (trim p).getD n 0 = p.getD n 0 := by
  induction p generalizing n with
  | nil => rfl
  | cons a p ih =>
    rw [trim_cons]
    by_cases hq : trim p = []
    · have hp0 : ∀ m, p.getD m 0 = 0 := by
        intro m
        rw [← ih m, hq]
        simp
      rw [if_pos hq]
      by_cases ha : a = 0
      · rw [if_pos ha]
        cases n with
        | zero => simp [ha]
        | succ n =>
          rw [List.getD_cons_succ, hp0 n]
          simp
      · rw [if_neg ha]
        cases n with
        | zero => rfl
        | succ n =>
          rw [List.getD_cons_succ, List.getD_cons_succ, hp0 n]
          simp
    · rw [if_neg hq]
      cases n with
      | zero => rfl
      | succ n => simpa using ih n

@[simp] theorem toPoly_trim (p : List K) : toPoly (trim p) = toPoly p := by
  ext n
  rw [coeff_toPoly, coeff_toPoly, trim_getD]

theorem trim_length_le (p : List K) : (trim p).length ≤ p.length := by
  induction p with
  | nil => simp [trim]
  | cons a p ih =>
    rw [trim_cons]
    by_cases hq : trim p = []
    · rw [if_pos hq]
      by_cases ha : a = 0
      · rw [if_pos ha]
        simp
      · rw [if_neg ha]
        simp
    · rw [if_neg hq]
      simpa using ih

theorem trim_last_ne_zero (p : List K) (h : trim p ≠ []) :
    (trim p).getD ((trim p).length - 1) 0 ≠ 0 := by
  induction p with
  | nil => exact absurd rfl h
  | cons a p ih =>
    rw [trim_cons] at h ⊢
    by_cases hq : trim p = []
    · rw [if_pos hq] at h ⊢
      by_cases ha : a = 0
      · rw [if_pos ha] at h
        exact absurd rfl h
      · rw [if_neg ha]
        simpa using ha
    · rw [if_neg hq] at h ⊢
      have hlast := ih hq
      have hlen0 : (trim p).length ≠ 0 := fun h0 => hq (List.length_eq_zero.mp h0)
      have hlen : (a :: trim p).length - 1 = ((trim p).length - 1) + 1 := by
        simp only [List.length_cons]
        omega
      rw [hlen, List.getD_cons_succ]
      exact hlast

theorem trim_idem (p : List K) : trim (trim p) = trim p := by
  induction p with
  | nil => rfl
  | cons a p ih =>
    rw [trim_cons]
    by_cases hq : trim p = []
    · rw [if_pos hq]
      by_cases ha : a = 0
      · rw [if_pos ha]
        rfl
      · rw [if_neg ha]
        simp [trim, ha]
    · rw [if_neg hq, trim_cons, ih, if_neg hq]

theorem trim_length_le_of_getD_zero {p : List K} {m : ℕ}
    (h : ∀ i, m ≤ i → p.getD i 0 = 0) : (trim p).length ≤ m := by
  by_contra hlt
  push_neg at hlt
  have hne : trim p ≠ [] := by
    intro hnil
    rw [hnil] at hlt
    simp at hlt
  have hnz := trim_last_ne_zero p hne
  rw [trim_getD] at hnz
  exact hnz (h _ (by omega))

theorem isZero_cons (a : K) (p : List K) :
    isZero (a :: p) = (decide (a = 0) && isZero p) := rfl

theorem isZero_iff_trim_nil {p : List K} : isZero p = true ↔ trim p = [] := by
  induction p with
  | nil => simp [isZero, trim]
  | cons a p ih =>
    rw [trim_cons, isZero_cons]
    by_cases ha : a = 0
    · by_cases hq : trim p = []
      · simp [ha, hq, ih.mpr hq]
      · simp only [if_neg hq]
        constructor
        · intro h
          have hz : isZero p = true := by simpa [ha] using h
          exact absurd (ih.mp hz) hq
        · intro h
          exact absurd h (by simp)
    · constructor
      · intro h
        simp [ha] at h
      · intro h
        by_cases hq : trim p = []
        · rw [if_pos hq, if_neg ha] at h
          simp at h
        · rw [if_neg hq] at h
          simp at h

theorem isZero_iff_toPoly {p : List K} : isZero p = true ↔ toPoly p = 0 := by
  rw [isZero_iff_trim_nil, toPoly_eq_zero_iff]
  constructor
  · intro h n
    rw [← trim_getD, h]
    simp
  · intro h
    have hle : (trim p).length ≤ 0 := trim_length_le_of_getD_zero (fun i _ => h i)
    exact List.length_eq_zero.mp (Nat.le_zero.mp hle)

theorem toPoly_addAux (p q : List K) : toPoly (addAux p q) = toPoly p + toPoly q := by
  induction p generalizing q with
  | nil => simp [addAux]
  | cons a p ih =>
    cases q with
    | nil => simp [addAux]
    | cons b q =>
      simp only [addAux, toPoly_cons, ih, Polynomial.C_add]
      ring

@[simp] theorem toPoly_polyAdd (p q : List K) : toPoly (polyAdd p q) = toPoly p + toPoly q := by
  rw [polyAdd, toPoly_trim, toPoly_addAux]

@[simp] theorem toPoly_polyNeg (p : List K) : toPoly (polyNeg p) = -toPoly p := by
  induction p with
  | nil => simp [polyNeg]
  | cons a p ih =>
    simp only [polyNeg, List.map_cons, toPoly_cons] at *
    rw [ih, Polynomial.C_neg]
    ring

@[simp] theorem toPoly_polySub (p q : List K) : toPoly (polySub p q) = toPoly p - toPoly q := by
  rw [polySub, toPoly_polyAdd, toPoly_polyNeg]
  ring

@[simp] theorem toPoly_polyCMul (c : K) (p : List K) :
    toPoly (polyCMul c p) = C c * toPoly p := by
  induction p with
  | nil => simp [polyCMul]
  | cons a p ih =>
    simp only [polyCMul, List.map_cons, toPoly_cons] at *
    rw [ih, Polynomial.C_mul]
    ring

@[simp] theorem toPoly_mulXpow (k : ℕ) (p : List K) :
    toPoly (mulXpow k p) = X ^ k * toPoly p := by
  induction k with
  | zero => simp [mulXpow]
  | succ k ih =>
    show toPoly (0 :: mulXpow k p) = _
    rw [toPoly_cons, ih, Polynomial.C_0, pow_succ]
    ring

@[simp] theorem toPoly_polyMul (p q : List K) : toPoly (polyMul p q) = toPoly p * toPoly q := by
  induction p with
  | nil => simp [polyMul]
  | cons a p ih =>
    show toPoly (polyAdd (polyCMul a q) (0 :: polyMul p q)) = _
    rw [toPoly_polyAdd, toPoly_polyCMul]
    simp only [toPoly_cons, ih, Polynomial.C_0]
    ring

theorem polyAdd_trimmed (p q : List K) : trim (polyAdd p q) = polyAdd p q := trim_idem _

theorem polySub_trimmed (p q : List K) : trim (polySub p q) = polySub p q := trim_idem _

theorem polyMul_trimmed (p q : List K) : trim (polyMul p q) = polyMul p q := by
  cases p with
  | nil => rfl
  | cons a p => exact trim_idem _

theorem addAux_getD (p q : List K) (n : ℕ) :
    (addAux p q).getD n 0 = p.getD n 0 + q.getD n 0 := by
  induction p generalizing q n with
  | nil => simp [addAux]
  | cons a p ih =>
    cases q with
    | nil => simp [addAux]
    | cons b q =>
      cases n with
      | zero => rfl
      | succ n => simpa [addAux] using ih q n

theorem addAux_length (p q : List K) : (addAux p q).length = max p.length q.length := by
  induction p generalizing q with
  | nil => simp [addAux]
  | cons a p ih =>
    cases q with
    | nil => simp [addAux]
    | cons b q => simpa [addAux, ih] using by omega

theorem polyNeg_getD (p : List K) (n : ℕ) : (polyNeg p).getD n 0 = -(p.getD n 0) := by
  induction p generalizing n with
  | nil => simp [polyNeg]
  | cons a p ih =>
    cases n with
    | zero => rfl
    | succ n => simpa [polyNeg] using ih n

theorem polyNeg_length (p : List K) : (polyNeg p).length = p.length := by
  simp [polyNeg]

theorem polyCMul_getD (c : K) (p : List K) (n : ℕ) :
    (polyCMul c p).getD n 0 = c * p.getD n 0 := by
  induction p generalizing n with
  | nil => simp [polyCMul]
  | cons a p ih =>
    cases n with
    | zero => rfl
    | succ n => simpa [polyCMul] using ih n

theorem polyCMul_length (c : K) (p : List K) : (polyCMul c p).length = p.length := by
  simp [polyCMul]

theorem mulXpow_length (k : ℕ) (p : List K) : (mulXpow k p).length = k + p.length := by
  simp [mulXpow]

theorem mulXpow_getD_add (k : ℕ) (p : List K) (i : ℕ) :
    (mulXpow k p).getD (k + i) 0 = p.getD i 0 := by
  induction k generalizing i with
  | zero => simp [mulXpow]
  | succ k ih =>
    show (0 :: mulXpow k p).getD (k + 1 + i) 0 = p.getD i 0
    have : k + 1 + i = (k + i) + 1 := by omega
    rw [this, List.getD_cons_succ, ih]

theorem leadCoeff_eq_getD (p : List K) (h : p ≠ []) :
    leadCoeff p = p.getD (p.length - 1) 0 := by
  rw [leadCoeff, List.getLast?_eq_getElem?, List.getD_eq_getElem?_getD]

theorem trim_leadCoeff_ne_zero (p : List K) (h : trim p ≠ []) : leadCoeff (trim p) ≠ 0 := by
  rw [leadCoeff_eq_getD _ h]
  exact trim_last_ne_zero p h

/-- The one long-division step of `divide_with_q_and_r` cancels the leading
coefficient, so the (trimmed) remainder gets strictly shorter. -/
theorem divStep_length_lt {den rem : List K} (hden : trim den = den) (hdne : den ≠ [])
    (hrem : trim rem = rem) (hge : den.length ≤ rem.length) :
    (polySub rem
      (mulXpow (rem.length - den.length)
        (polyCMul (leadCoeff rem * (leadCoeff den)⁻¹) den))).length < rem.length := by
  have hdlen : 1 ≤ den.length := by
    cases den with
    | nil => exact absurd rfl hdne
    | cons x xs => simp
  have hrlen : 1 ≤ rem.length := le_trans hdlen hge
  have hldden : leadCoeff den ≠ 0 := by
    have := trim_leadCoeff_ne_zero den (by rw [hden]; exact hdne)
    rwa [hden] at this
  set k := rem.length - den.length with hk
  set c := leadCoeff rem * (leadCoeff den)⁻¹ with hc
  set y := mulXpow k (polyCMul c den) with hy
  have hylen : y.length = rem.length := by
    rw [hy, mulXpow_length, polyCMul_length]
    omega
  have hzero : ∀ i, rem.length - 1 ≤ i → (addAux rem (polyNeg y)).getD i 0 = 0 := by
    intro i hi
    rcases Nat.lt_or_ge i rem.length with hilt | hige
    · have hieq : i = rem.length - 1 := by omega
      subst hieq
      rw [addAux_getD, polyNeg_getD]
      have hrlead : rem.getD (rem.length - 1) 0 = leadCoeff rem := by
        rw [leadCoeff_eq_getD rem (by intro h0; rw [h0] at hrlen; simp at hrlen)]
      have hylead : y.getD (rem.length - 1) 0 = c * leadCoeff den := by
        have hsplit : rem.length - 1 = k + (den.length - 1) := by omega
        rw [hsplit, hy, mulXpow_getD_add, polyCMul_getD,
          leadCoeff_eq_getD den hdne]
      rw [hrlead, hylead, hc, mul_assoc, inv_mul_cancel₀ hldden, mul_one]
      ring
    · apply getD_eq_zero_of_length_le
      rw [addAux_length, polyNeg_length, hylen]
      omega
  have hle : (trim (addAux rem (polyNeg y))).length ≤ rem.length - 1 :=
    trim_length_le_of_getD_zero hzero
  calc (polySub rem y).length = (trim (addAux rem (polyNeg y))).length := rfl
    _ ≤ rem.length - 1 := hle
    _ < rem.length := by omega

/-- The division loop of `DenseOrSparsePolynomial::divide_with_q_and_r`.
Each round cancels the remainder's leading term; the fuel is instantiated with
`remainder length + 1`, which `divLoop_isSome` proves sufficient. -/
def divLoop (den : List K) : ℕ → List K → Option (List K × List K)
  | 0, _ => none
  | fuel+1, rem =>
    if rem.length < den.length then some ([], rem)
    else
      let k := rem.length - den.length
      let c := leadCoeff rem * (leadCoeff den)⁻¹
      let rem2 := polySub rem (mulXpow k (polyCMul c den))
      match divLoop den fuel rem2 with
      | none => none
      | some (q, r) => some (polyAdd q (mulXpow k [c]), r)

/-- `divide_with_q_and_r(num, den)`: `None` iff the divisor is zero. -/
def polyDivMod (num den : List K) : Option (List K × List K) :=
  if isZero den then none
  else divLoop (trim den) ((trim num).length + 1) (trim num)

/-- Quotient of `num / den` (the `Div` impl unwraps `divide_with_q_and_r`;
the divisor is never zero at its call sites). -/
def polyDivQ (num den : List K) : List K := ((polyDivMod num den).getD ([], [])).1

theorem divLoop_spec (den : List K) (fuel : ℕ) :
    ∀ rem q r, trim rem = rem → divLoop den fuel rem = some (q, r) →
      toPoly rem = toPoly q * toPoly den + toPoly r ∧ r.length < den.length ∧ trim r = r := by
  induction fuel with
  | zero => intro rem q r _ h; cases h
  | succ fuel ih =>
    intro rem q r hrem h
    rw [divLoop] at h
    by_cases hlt : rem.length < den.length
    · rw [if_pos hlt] at h
      simp only [Option.some.injEq, Prod.mk.injEq] at h
      obtain ⟨rfl, rfl⟩ := h
      refine ⟨by simp, hlt, hrem⟩
    · rw [if_neg hlt] at h
      simp only at h
      rcases hrec : divLoop den fuel
          (polySub rem (mulXpow (rem.length - den.length)
            (polyCMul (leadCoeff rem * (leadCoeff den)⁻¹) den))) with _ | ⟨q', r'⟩
      · rw [hrec] at h
        cases h
      · rw [hrec] at h
        simp only [Option.some.injEq, Prod.mk.injEq] at h
        obtain ⟨rfl, rfl⟩ := h
        obtain ⟨hid, hrlen, hrtrim⟩ := ih _ q' r' (polySub_trimmed _ _) hrec
        refine ⟨?_, hrlen, hrtrim⟩
        rw [toPoly_polySub, toPoly_mulXpow, toPoly_polyCMul] at hid
        rw [toPoly_polyAdd, toPoly_mulXpow]
        have htc : toPoly [leadCoeff rem * (leadCoeff den)⁻¹] =
            Polynomial.C (leadCoeff rem * (leadCoeff den)⁻¹) := by
          simp [toPoly]
        rw [htc]
        have := hid
        ring_nf
        ring_nf at this
        linear_combination this

theorem divLoop_isSome (den : List K) (hden : trim den = den) (hdne : den ≠ []) :
    ∀ fuel rem, trim rem = rem → rem.length < fuel → (divLoop den fuel rem).isSome := by
  intro fuel
  induction fuel with
  | zero => intro rem _ h; omega
  | succ fuel ih =>
    intro rem hrem hlen
    rw [divLoop]
    by_cases hlt : rem.length < den.length
    · rw [if_pos hlt]
      simp
    · rw [if_neg hlt]
      push_neg at hlt
      have hlt2 := divStep_length_lt hden hdne hrem hlt
      have hs := ih (polySub rem (mulXpow (rem.length - den.length)
        (polyCMul (leadCoeff rem * (leadCoeff den)⁻¹) den))) (polySub_trimmed _ _) (by omega)
      simp only
      rcases h2 : divLoop den fuel (polySub rem (mulXpow (rem.length - den.length)
          (polyCMul (leadCoeff rem * (leadCoeff den)⁻¹) den))) with _ | ⟨q, r⟩
      · rw [h2] at hs
        simp at hs
      · simp

theorem polyDivMod_spec {num den q r : List K} (h : polyDivMod num den = some (q, r)) :
    toPoly num = toPoly q * toPoly den + toPoly r ∧
      r.length < (trim den).length ∧ trim r = r := by
  rw [polyDivMod] at h
  by_cases hz : isZero den = true
  · rw [if_pos hz] at h
    cases h
  · rw [if_neg hz] at h
    obtain ⟨hid, hrlen, hrtrim⟩ := divLoop_spec (trim den) _ _ q r (trim_idem num) h
    rw [toPoly_trim, toPoly_trim] at hid
    exact ⟨hid, hrlen, hrtrim⟩

theorem polyDivMod_isSome (num den : List K) (hden : isZero den = false) :
    (polyDivMod num den).isSome := by
  rw [polyDivMod]
  have hz : ¬ isZero den = true := by simp [hden]
  rw [if_neg hz]
  have hne : trim den ≠ [] := fun h => hz (isZero_iff_trim_nil.mpr h)
  exact divLoop_isSome (trim den) (trim_idem den) hne _ (trim num) (trim_idem num)
    (Nat.lt_succ_self _)

/-- The extended Euclid loop of `acc/utils.rs::xgcd`, carrying the Bézout
state `(x0, x1, y0, y1)` exactly as the source does.  The fuel is instantiated
with `a.length + 1`; each round replaces `a` by the strictly shorter remainder
of `b % a`, so `xgcdAux_isSome` shows that fuel never runs out. -/
def xgcdAux : ℕ → List K → List K → List K → List K → List K → List K →
    Option (List K × List K × List K)
  | 0, _, _, _, _, _, _ => none
  | fuel+1, a, b, x0, x1, y0, y1 =>
    if isZero a then some (b, x0, y0)
    else
      match polyDivMod b a with
      | none => none
      | some (q, r) =>
        xgcdAux fuel r a x1 (polySub x0 (polyMul q x1)) y1 (polySub y0 (polyMul q y1))

/-- `xgcd(a, b)`: returns `(g, x, y)` with `a*x + b*y = g`. -/
def xgcd (a b : List K) : Option (List K × List K × List K) :=
  xgcdAux (a.length + 1) a b [] [1] [1] []

theorem xgcdAux_bezout (A B : Polynomial K) :
    ∀ fuel a b x0 x1 y0 y1 g u v,
      toPoly a = A * toPoly x1 + B * toPoly y1 →
      toPoly b = A * toPoly x0 + B * toPoly y0 →
      xgcdAux fuel a b x0 x1 y0 y1 = some (g, u, v) →
      toPoly g = A * toPoly u + B * toPoly v := by
  intro fuel
  induction fuel with
  | zero => intro a b x0 x1 y0 y1 g u v _ _ h; cases h
  | succ fuel ih =>
    intro a b x0 x1 y0 y1 g u v h1 h0 h
    rw [xgcdAux] at h
    by_cases hz : isZero a
    · rw [if_pos hz] at h
      simp only [Option.some.injEq, Prod.mk.injEq] at h
      obtain ⟨rfl, rfl, rfl⟩ := h
      exact h0
    · rw [if_neg hz] at h
      rcases hdm : polyDivMod b a with _ | ⟨q, r⟩
      · rw [hdm] at h
        cases h
      · rw [hdm] at h
        have hid := (polyDivMod_spec hdm).1
        refine ih r a x1 (polySub x0 (polyMul q x1)) y1 (polySub y0 (polyMul q y1))
          g u v ?_ h1 h
        rw [toPoly_polySub, toPoly_polySub, toPoly_polyMul, toPoly_polyMul]
        have : toPoly r = toPoly b - toPoly q * toPoly a := by
          rw [hid]; ring
        rw [this, h1, h0]
        ring

theorem xgcdAux_dvd :
    ∀ (fuel : ℕ) (a b x0 x1 y0 y1 g u v : List K),
      xgcdAux fuel a b x0 x1 y0 y1 = some (g, u, v) →
      toPoly g ∣ toPoly a ∧ toPoly g ∣ toPoly b := by
  intro fuel
  induction fuel with
  | zero => intro a b x0 x1 y0 y1 g u v h; cases h
  | succ fuel ih =>
    intro a b x0 x1 y0 y1 g u v h
    rw [xgcdAux] at h
    by_cases hz : isZero a
    · rw [if_pos hz] at h
      simp only [Option.some.injEq, Prod.mk.injEq] at h
      obtain ⟨rfl, rfl, rfl⟩ := h
      have ha0 : toPoly a = 0 := isZero_iff_toPoly.mp hz
      exact ⟨by rw [ha0]; exact dvd_zero _, dvd_refl _⟩
    · rw [if_neg hz] at h
      rcases hdm : polyDivMod b a with _ | ⟨q, r⟩
      · rw [hdm] at h
        cases h
      · rw [hdm] at h
        obtain ⟨hr, ha⟩ := ih r a x1 _ y1 _ g u v h
        have hid := (polyDivMod_spec hdm).1
        refine ⟨ha, ?_⟩
        rw [hid]
        exact dvd_add (ha.mul_left _) hr

theorem xgcdAux_isSome :
    ∀ fuel a b x0 x1 y0 y1, trim a = a → a.length < fuel →
      (xgcdAux (K := K) fuel a b x0 x1 y0 y1).isSome := by
  intro fuel
  induction fuel with
  | zero => intro a b x0 x1 y0 y1 _ h; omega
  | succ fuel ih =>
    intro a b x0 x1 y0 y1 ha hlen
    rw [xgcdAux]
    by_cases hz : isZero a
    · rw [if_pos hz]
      simp
    · rw [if_neg hz]
      have hz2 : isZero a = false := by simp [Bool.not_eq_true] at hz; exact hz
      have hsome := polyDivMod_isSome b a hz2
      rcases hdm : polyDivMod b a with _ | ⟨q, r⟩
      · rw [hdm] at hsome
        simp at hsome
      · obtain ⟨hid, hrlen, hrtrim⟩ := polyDivMod_spec hdm
        rw [ha] at hrlen
        exact ih r a x1 _ y1 _ hrtrim (by omega)

theorem xgcd_bezout {a b g u v : List K} (h : xgcd a b = some (g, u, v)) :
    toPoly g = toPoly a * toPoly u + toPoly b * toPoly v := by
  refine xgcdAux_bezout (toPoly a) (toPoly b) (a.length + 1) a b [] [1] [1] []
    g u v ?_ ?_ h
  · simp [toPoly]
  · simp [toPoly]

theorem xgcd_dvd {a b g u v : List K} (h : xgcd a b = some (g, u, v)) :
    toPoly g ∣ toPoly a ∧ toPoly g ∣ toPoly b :=
  xgcdAux_dvd (a.length + 1) a b [] [1] [1] [] g u v h

theorem xgcd_isSome (a b : List K) (ha : trim a = a) : (xgcd a b).isSome :=
  xgcdAux_isSome (a.length + 1) a b [] [1] [1] [] ha (Nat.lt_succ_self _)

theorem xgcdAux_g_trimmed :
    ∀ (fuel : ℕ) (a b x0 x1 y0 y1 g u v : List K), trim a = a → trim b = b →
      xgcdAux fuel a b x0 x1 y0 y1 = some (g, u, v) → trim g = g := by
  intro fuel
  induction fuel with
  | zero => intro a b x0 x1 y0 y1 g u v _ _ h; cases h
  | succ fuel ih =>
    intro a b x0 x1 y0 y1 g u v ha hb h
    rw [xgcdAux] at h
    by_cases hz : isZero a
    · rw [if_pos hz] at h
      simp only [Option.some.injEq, Prod.mk.injEq] at h
      obtain ⟨rfl, rfl, rfl⟩ := h
      exact hb
    · rw [if_neg hz] at h
      rcases hdm : polyDivMod b a with _ | ⟨q, r⟩
      · rw [hdm] at h
        cases h
      · rw [hdm] at h
        exact ih r a x1 _ y1 _ g u v (polyDivMod_spec hdm).2.2 ha h

theorem xgcd_g_trimmed {a b g u v : List K} (ha : trim a = a) (hb : trim b = b)
    (h : xgcd a b = some (g, u, v)) : trim g = g :=
  xgcdAux_g_trimmed (a.length + 1) a b [] [1] [1] [] g u v ha hb h

end PolyL

/-! ## DigestSet and polynomial expansion (`acc/digest_set.rs`)

A `DigestSet` is the ordered vector of `(field element, multiplicity)` pairs;
the hash-to-field step that produces it from a `MultiSet` is the identity in
this model (claims about the accumulators quantify over the digest sets). -/

namespace DigestSet

open PolyL Polynomial

variable {K : Type} [Field K] [DecidableEq K]

/-- The list of per-factor linear polynomials `[x + kᵢ]`, each key repeated by
its multiplicity, in input order (`expand_to_poly`'s `inputs` vector). -/
def expandInputs (S : List (K × ℕ)) : List (List K) :=
  S.bind (fun e => List.replicate e.2 [e.1, 1])

/-- The divide-and-conquer tree product inside `expand_to_poly`: empty → `1`,
single → itself, otherwise split at `len / 2` and multiply the halves.  The
recursion halves the list, so fuel `length + 1` suffices
(`expandAux_isSome`). -/
def expandAux : ℕ → List (List K) → Option (List K)
  | 0, _ => none
  | _+1, [] => some [1]
  | _+1, [p] => some p
  | fuel+1, polys =>
    match expandAux fuel (polys.take (polys.length / 2)),
        expandAux fuel (polys.drop (polys.length / 2)) with
    | some l, some r => some (PolyL.polyMul l r)
    | _, _ => none

theorem expandAux_cons2 (fuel : ℕ) (p1 p2 : List K) (rest : List (List K)) :
    expandAux (fuel+1) (p1 :: p2 :: rest) =
      match expandAux fuel ((p1 :: p2 :: rest).take ((p1 :: p2 :: rest).length / 2)),
          expandAux fuel ((p1 :: p2 :: rest).drop ((p1 :: p2 :: rest).length / 2)) with
      | some l, some r => some (PolyL.polyMul l r)
      | _, _ => none := rfl

theorem expandAux_isSome :
    ∀ (fuel : ℕ) (l : List (List K)), l.length < fuel → (expandAux fuel l).isSome := by
  intro fuel
  induction fuel with
  | zero => intro l h; omega
  | succ fuel ih =>
    intro l hl
    rcases l with _ | ⟨p1, _ | ⟨p2, rest⟩⟩
    · simp [expandAux]
    · simp [expandAux]
    · rw [expandAux_cons2]
      have hlen : (p1 :: p2 :: rest).length = rest.length + 2 := by simp
      have h1 : ((p1 :: p2 :: rest).take ((p1 :: p2 :: rest).length / 2)).length < fuel := by
        rw [List.length_take]
        omega
      have h2 : ((p1 :: p2 :: rest).drop ((p1 :: p2 :: rest).length / 2)).length < fuel := by
        rw [List.length_drop]
        omega
      have hs1 := ih _ h1
      have hs2 := ih _ h2
      rcases he1 : expandAux fuel ((p1 :: p2 :: rest).take ((p1 :: p2 :: rest).length / 2))
        with _ | ⟨q1⟩
      · rw [he1] at hs1
        simp at hs1
      · rcases he2 : expandAux fuel ((p1 :: p2 :: rest).drop ((p1 :: p2 :: rest).length / 2))
          with _ | ⟨q2⟩
        · rw [he2] at hs2
          simp at hs2
        · simp

theorem expandAux_prod :
    ∀ (fuel : ℕ) (l : List (List K)) (p : List K), expandAux fuel l = some p →
      toPoly p = (l.map toPoly).prod := by
  intro fuel
  induction fuel with
  | zero => intro l p h; cases h
  | succ fuel ih =>
    intro l p h
    rcases l with _ | ⟨p1, _ | ⟨p2, rest⟩⟩
    · rw [expandAux] at h
      simp only [Option.some.injEq] at h
      subst h
      simp [toPoly]
    · rw [expandAux] at h
      simp only [Option.some.injEq] at h
      subst h
      simp
    · rw [expandAux_cons2] at h
      rcases he1 : expandAux fuel ((p1 :: p2 :: rest).take ((p1 :: p2 :: rest).length / 2))
        with _ | ⟨q1⟩
      · rw [he1] at h
        cases h
      · rcases he2 : expandAux fuel ((p1 :: p2 :: rest).drop ((p1 :: p2 :: rest).length / 2))
          with _ | ⟨q2⟩
        · rw [he1, he2] at h
          cases h
        · rw [he1, he2] at h
          simp only [Option.some.injEq] at h
          subst h
          rw [toPoly_polyMul, ih _ _ he1, ih _ _ he2, ← List.prod_append, ← List.map_append,
            List.take_append_drop]

theorem expandAux_trimmed :
    ∀ (fuel : ℕ) (l : List (List K)) (p : List K), (∀ q ∈ l, trim q = q) →
      expandAux fuel l = some p → trim p = p := by
  intro fuel
  induction fuel with
  | zero => intro l p _ h; cases h
  | succ fuel ih =>
    intro l p hq h
    rcases l with _ | ⟨p1, _ | ⟨p2, rest⟩⟩
    · rw [expandAux] at h
      simp only [Option.some.injEq] at h
      subst h
      simp [trim, one_ne_zero]
    · rw [expandAux] at h
      simp only [Option.some.injEq] at h
      subst h
      exact hq p1 (by simp)
    · rw [expandAux_cons2] at h
      rcases he1 : expandAux fuel ((p1 :: p2 :: rest).take ((p1 :: p2 :: rest).length / 2))
        with _ | ⟨q1⟩
      · rw [he1] at h
        cases h
      · rcases he2 : expandAux fuel ((p1 :: p2 :: rest).drop ((p1 :: p2 :: rest).length / 2))
          with _ | ⟨q2⟩
        · rw [he1, he2] at h
          cases h
        · rw [he1, he2] at h
          simp only [Option.some.injEq] at h
          subst h
          exact polyMul_trimmed q1 q2

/-- `DigestSet::expand_to_poly`: the tree product of all linear factors. -/
def expand_to_poly (S : List (K × ℕ)) : List K :=
  (expandAux ((expandInputs S).length + 1) (expandInputs S)).get
    (expandAux_isSome _ _ (Nat.lt_succ_self _))

theorem expand_to_poly_eq_some (S : List (K × ℕ)) :
    expandAux ((expandInputs S).length + 1) (expandInputs S) = some (expand_to_poly S) :=
  (Option.some_get _).symm

theorem toPoly_expand (S : List (K × ℕ)) :
    toPoly (expand_to_poly S) = (S.map (fun e => (X + C e.1) ^ e.2)).prod := by
  rw [expandAux_prod _ _ _ (expand_to_poly_eq_some S)]
  induction S with
  | nil => simp [expandInputs]
  | cons e S ih =>
    have hsplit : expandInputs (e :: S) =
        List.replicate e.2 [e.1, 1] ++ expandInputs S := by
      simp [expandInputs]
    rw [hsplit, List.map_append, List.prod_append, ih, List.map_cons, List.prod_cons,
      List.map_replicate, List.prod_replicate]
    have hlin : toPoly [e.1, (1 : K)] = X + C e.1 := by
      simp [toPoly]
      ring
    rw [hlin]

theorem expand_trimmed (S : List (K × ℕ)) :
    trim (expand_to_poly S) = expand_to_poly S := by
  refine expandAux_trimmed _ _ _ ?_ (expand_to_poly_eq_some S)
  intro q hqmem
  rw [expandInputs, List.mem_bind] at hqmem
  obtain ⟨e, _, hq⟩ := hqmem
  rw [List.eq_of_mem_replicate hq]
  show trim [e.1, (1 : K)] = [e.1, 1]
  have h1 : trim [(1 : K)] = [1] := by simp [trim, one_ne_zero]
  rw [trim_cons, h1]
  simp

theorem toPoly_expand_ne_zero (S : List (K × ℕ)) : toPoly (expand_to_poly S) ≠ 0 := by
  rw [toPoly_expand]
  apply List.prod_ne_zero
  intro hx
  rw [List.mem_map] at hx
  obtain ⟨e, _, he⟩ := hx
  exact pow_ne_zero _ (Polynomial.X_add_C_ne_zero e.1) he

theorem natDegree_expand (S : List (K × ℕ)) :
    (toPoly (expand_to_poly S)).natDegree = (S.map (·.2)).sum := by
  rw [toPoly_expand]
  induction S with
  | nil => simp
  | cons e S ih =>
    rw [List.map_cons, List.prod_cons, List.map_cons, List.sum_cons]
    have h1 : ((X + C e.1 : Polynomial K) ^ e.2) ≠ 0 :=
      pow_ne_zero _ (Polynomial.X_add_C_ne_zero e.1)
    have h2 : ((S.map (fun e => (X + C e.1 : Polynomial K) ^ e.2)).prod) ≠ 0 := by
      apply List.prod_ne_zero
      intro hx
      rw [List.mem_map] at hx
      obtain ⟨e2, _, he2⟩ := hx
      exact pow_ne_zero _ (Polynomial.X_add_C_ne_zero e2.1) he2
    rw [Polynomial.natDegree_mul h1 h2, Polynomial.natDegree_pow, ih]
    rw [Polynomial.natDegree_X_add_C, mul_one]

theorem degree_eq_natDegree_of_trimmed {p : List K} (hp : trim p = p) (hne : p ≠ []) :
    PolyL.degree p = (toPoly p).natDegree := by
  rw [PolyL.degree, hp]
  have hcoeff : (toPoly p).coeff (p.length - 1) ≠ 0 := by
    rw [coeff_toPoly]
    have := trim_last_ne_zero p (by rw [hp]; exact hne)
    rwa [hp] at this
  have hlen1 : 1 ≤ p.length := by
    cases p with
    | nil => exact absurd rfl hne
    | cons x xs => simp
  have hub : (toPoly p).natDegree ≤ p.length - 1 := by
    rw [Polynomial.natDegree_le_iff_coeff_eq_zero]
    intro m hm
    rw [coeff_toPoly]
    exact getD_eq_zero_of_length_le (by omega)
  have hlb : p.length - 1 ≤ (toPoly p).natDegree :=
    Polynomial.le_natDegree_of_ne_zero hcoeff
  omega

theorem degree_expand (S : List (K × ℕ)) :
    PolyL.degree (expand_to_poly S) = (S.map (·.2)).sum := by
  have hne : expand_to_poly S ≠ [] := by
    intro h
    have := toPoly_expand_ne_zero S
    rw [h] at this
    exact this rfl
  rw [degree_eq_natDegree_of_trimmed (expand_trimmed S) hne, natDegree_expand]

end DigestSet

/-! ## Accumulators (`src/vchain/src/acc/mod.rs`), in the exponent model -/

/-- The two failure paths of `gen_proof`: the `context("failed to compute
xgcd")` error and the `ensure!`/`bail!` "cannot generate proof" error. -/
inductive AccErr
  | xgcdFailed
  | cannotGenProof
deriving DecidableEq

/-- ACC1 proof `(f1, f2)`, two `G2` points modelled by their exponents. -/
structure Acc1Proof (K : Type) where
  f1 : K
  f2 : K
deriving DecidableEq

/-- ACC2 proof `f`, a `G1` point modelled by its exponent. -/
structure Acc2Proof (r : ℕ) where
  f : ZMod r
deriving DecidableEq

namespace Acc1

variable {K : Type} [Field K] [DecidableEq K]

/-- `Acc1::poly_to_g1` (vchain variant).  `idxes` collects the positions of
the nonzero coefficients, but the two loops that follow run over
`0..idxes.len()` and pair base `g₁^{s^i}` with scalar `poly.coeffs[i]` using
the loop index `i` directly (not `idxes[i]`), exactly as the source does. -/
def poly_to_g1 (s : K) (p : List K) : K :=
  let idxes := (List.range p.length).filter (fun i => decide (p.getD i 0 ≠ 0))
  ((List.range idxes.length).map (fun i => p.getD i 0 * s ^ i)).sum

/-- `Acc1::poly_to_g2` (vchain variant), same structure as `poly_to_g1`. -/
def poly_to_g2 (s : K) (p : List K) : K :=
  let idxes := (List.range p.length).filter (fun i => decide (p.getD i 0 ≠ 0))
  ((List.range idxes.length).map (fun i => p.getD i 0 * s ^ i)).sum

/-- `Acc1::cal_acc_g1_sk_d`: exponent `x = ∏ (s + kᵢ)^{cᵢ}`. -/
def cal_acc_g1_sk_d (s : K) (S : List (K × ℕ)) : K :=
  (S.map (fun e => (s + e.1) ^ e.2)).prod

/-- `Acc1::cal_acc_g1_d`: expand to a polynomial, then MSM over the public
powers. -/
def cal_acc_g1_d (s : K) (S : List (K × ℕ)) : K :=
  poly_to_g1 s (DigestSet.expand_to_poly S)

/-- `Acc1::cal_acc_g2_sk_d`. -/
def cal_acc_g2_sk_d (s : K) (S : List (K × ℕ)) : K :=
  (S.map (fun e => (s + e.1) ^ e.2)).prod

/-- `Acc1::cal_acc_g2_d`. -/
def cal_acc_g2_d (s : K) (S : List (K × ℕ)) : K :=
  poly_to_g2 s (DigestSet.expand_to_poly S)

/-- `Acc1::gen_proof`: extended gcd of the two expanded polynomials; fail with
"cannot generate proof" unless the gcd has degree 0; otherwise publish
`(g₂^{(x/g)(s)}, g₂^{(y/g)(s)})`. -/
def gen_proof (s : K) (S1 S2 : List (K × ℕ)) : Except AccErr (Acc1Proof K) :=
  let poly1 := DigestSet.expand_to_poly S1
  let poly2 := DigestSet.expand_to_poly S2
  match PolyL.xgcd poly1 poly2 with
  | none => .error .xgcdFailed
  | some (g, x, y) =>
    if PolyL.degree g ≠ 0 then .error .cannotGenProof
    else .ok ⟨poly_to_g2 s (PolyL.polyDivQ x g), poly_to_g2 s (PolyL.polyDivQ y g)⟩

end Acc1

/-- `Acc1Proof::verify`: `e(acc1, f1) · e(acc2, f2) = e(g₁, g₂)`, i.e.
`acc1·f1 + acc2·f2 = 1` on exponents. -/
def Acc1Proof.verify {K : Type} [Field K] [DecidableEq K]
    (pf : Acc1Proof K) (acc1 acc2 : K) : Bool :=
  decide (acc1 * pf.f1 + acc2 * pf.f2 = 1)

namespace Acc2

variable {r : ℕ}

/-- `Acc2::cal_acc_g1_sk_d`: exponent `Σ cᵢ · s^{kᵢ}` (the scalar power table
raises `s` to the integer representative of the digest value). -/
def cal_acc_g1_sk_d (s : ZMod r) (S : List (ZMod r × ℕ)) : ZMod r :=
  (S.map (fun e => s ^ e.1.val * (e.2 : ZMod r))).sum

/-- `Acc2::cal_acc_g1_d`: MSM of bases `g₁^{s^{kᵢ}}` with scalars `cᵢ`. -/
def cal_acc_g1_d (s : ZMod r) (S : List (ZMod r × ℕ)) : ZMod r :=
  (S.map (fun e => (e.2 : ZMod r) * s ^ e.1.val)).sum

/-- `Acc2::cal_acc_g2_sk_d`: exponent `Σ cᵢ · s^{Q - kᵢ}`. -/
def cal_acc_g2_sk_d (s Q : ZMod r) (S : List (ZMod r × ℕ)) : ZMod r :=
  (S.map (fun e => s ^ (Q - e.1).val * (e.2 : ZMod r))).sum

/-- `Acc2::cal_acc_g2_d`: MSM of bases `g₂^{s^{Q - kᵢ}}` with scalars `cᵢ`. -/
def cal_acc_g2_d (s Q : ZMod r) (S : List (ZMod r × ℕ)) : ZMod r :=
  (S.map (fun e => (e.2 : ZMod r) * s ^ (Q - e.1).val)).sum

/-- The product vector of `Acc2::gen_proof`: entry `i` pairs
`set1[i / len2]` with `set2[i % len2]` and is
`(Q + a - b, p·q)`. -/
def productList (Q : ZMod r) (S1 S2 : List (ZMod r × ℕ)) : List (ZMod r × ℕ) :=
  (List.range (S1.length * S2.length)).map (fun i =>
    (Q + (S1.getD (i / S2.length) (0, 0)).1 - (S2.getD (i % S2.length) (0, 0)).1,
     (S1.getD (i / S2.length) (0, 0)).2 * (S2.getD (i % S2.length) (0, 0)).2))

/-- `Acc2::gen_proof`: bail with "cannot generate proof" if any product entry
equals `Q`; otherwise publish the MSM `g₁^{Σ pq · s^{Q+a-b}}`. -/
def gen_proof (s Q : ZMod r) (S1 S2 : List (ZMod r × ℕ)) : Except AccErr (Acc2Proof r) :=
  let product := productList Q S1 S2
  if product.any (fun e => decide (e.1 = Q)) then .error .cannotGenProof
  else .ok ⟨(product.map (fun e => (e.2 : ZMod r) * s ^ e.1.val)).sum⟩

end Acc2

/-- `Acc2Proof::verify`: `e(acc1, acc2) = e(f, g₂)`, i.e. `acc1·acc2 = f` on
exponents. -/
def Acc2Proof.verify {r : ℕ} (pf : Acc2Proof r) (acc1 : ZMod r) (acc2 : ZMod r) : Bool :=
  decide (acc1 * acc2 = pf.f)

/-- `Acc2Proof::combine_proof`: add the `f` components in `G1`. -/
def Acc2Proof.combine_proof {r : ℕ} (pf other : Acc2Proof r) : Acc2Proof r :=
  ⟨pf.f + other.f⟩

/-! ### ACC2 pairing arithmetic -/

theorem sum_map_bind {α β γ : Type} [AddCommMonoid γ] (l : List α) (f : α → List β)
    (g : β → γ) :
    ((l.bind f).map g).sum = (l.map (fun a => ((f a).map g).sum)).sum := by
  induction l with
  | nil => simp
  | cons a t ih => simp [ih]

theorem mul_sum_map {β γ : Type} [NonUnitalNonAssocSemiring γ] (x : γ) (l : List β)
    (f : β → γ) : x * (l.map f).sum = (l.map (fun b => x * f b)).sum := by
  induction l with
  | nil => simp
  | cons a t ih => simp [mul_add, ih]

theorem map_range_getD {α β : Type} (l : List α) (d : α) (F : α → β) :
    (List.range l.length).map (fun i => F (l.getD i d)) = l.map F := by
  induction l with
  | nil => simp
  | cons a t ih =>
    rw [List.length_cons, List.range_succ_eq_map, List.map_cons, List.map_map]
    have hcomp : ((fun i => F ((a :: t).getD i d)) ∘ Nat.succ) = fun i => F (t.getD i d) := by
      funext i
      simp [Function.comp]
    rw [hcomp, ih]
    rfl

namespace Acc2

variable {r : ℕ}

theorem productList_cons (Q : ZMod r) (e1 : ZMod r × ℕ) (t S2 : List (ZMod r × ℕ)) :
    productList Q (e1 :: t) S2 =
      S2.map (fun e2 => (Q + e1.1 - e2.1, e1.2 * e2.2)) ++ productList Q t S2 := by
  rcases Nat.eq_zero_or_pos S2.length with h0 | hpos
  · have hnil : S2 = [] := List.length_eq_zero.mp h0
    subst hnil
    simp [productList]
  · unfold productList
    have hlen : (e1 :: t).length * S2.length = S2.length + t.length * S2.length := by
      simp [List.length_cons]
      ring
    rw [hlen, List.range_add, List.map_append]
    congr 1
    · have h1 : ∀ i ∈ List.range S2.length,
          (Q + ((e1 :: t).getD (i / S2.length) (0, 0)).1 - (S2.getD (i % S2.length) (0, 0)).1,
            ((e1 :: t).getD (i / S2.length) (0, 0)).2 * (S2.getD (i % S2.length) (0, 0)).2) =
          (fun e2 => (Q + e1.1 - e2.1, e1.2 * e2.2)) (S2.getD i (0, 0)) := by
        intro i hi
        rw [List.mem_range] at hi
        rw [Nat.div_eq_of_lt hi, Nat.mod_eq_of_lt hi]
        rfl
      rw [List.map_congr_left h1]
      exact map_range_getD S2 (0, 0) (fun e2 => (Q + e1.1 - e2.1, e1.2 * e2.2))
    · rw [List.map_map]
      apply List.map_congr_left
      intro j hj
      simp only [Function.comp]
      have hd : (S2.length + j) / S2.length = j / S2.length + 1 := by
        rw [add_comm]
        exact Nat.add_div_right j hpos
      have hm : (S2.length + j) % S2.length = j % S2.length := Nat.add_mod_left _ _
      rw [hd, hm]
      rfl

theorem productList_eq_bind (Q : ZMod r) (S1 S2 : List (ZMod r × ℕ)) :
    productList Q S1 S2 =
      S1.bind (fun e1 => S2.map (fun e2 => (Q + e1.1 - e2.1, e1.2 * e2.2))) := by
  induction S1 with
  | nil => simp [productList]
  | cons e1 t ih =>
    have hb : (e1 :: t).bind
        (fun e1 => S2.map (fun e2 => (Q + e1.1 - e2.1, e1.2 * e2.2))) =
        S2.map (fun e2 => (Q + e1.1 - e2.1, e1.2 * e2.2)) ++
          t.bind (fun e1 => S2.map (fun e2 => (Q + e1.1 - e2.1, e1.2 * e2.2))) := rfl
    rw [productList_cons, hb, ih]

theorem mem_productList {Q : ZMod r} {S1 S2 : List (ZMod r × ℕ)} {e : ZMod r × ℕ} :
    e ∈ productList Q S1 S2 ↔
      ∃ e1 ∈ S1, ∃ e2 ∈ S2, e = (Q + e1.1 - e2.1, e1.2 * e2.2) := by
  rw [productList_eq_bind, List.mem_bind]
  constructor
  · rintro ⟨e1, h1, he⟩
    rw [List.mem_map] at he
    obtain ⟨e2, h2, rfl⟩ := he
    exact ⟨e1, h1, e2, h2, rfl⟩
  · rintro ⟨e1, h1, e2, h2, rfl⟩
    exact ⟨e1, h1, List.mem_map.mpr ⟨e2, h2, rfl⟩⟩

theorem shift_eq_Q_iff {Q a b : ZMod r} : Q + a - b = Q ↔ a = b := by
  constructor
  · intro h
    have h2 : a - b = 0 := by linear_combination h
    exact sub_eq_zero.mp h2
  · intro h
    rw [h]
    ring

theorem gen_proof_error_iff (s Q : ZMod r) (S1 S2 : List (ZMod r × ℕ)) :
    gen_proof s Q S1 S2 = .error .cannotGenProof ↔
      ∃ e1 ∈ S1, ∃ e2 ∈ S2, e1.1 = e2.1 := by
  unfold gen_proof
  by_cases hc : (productList Q S1 S2).any (fun e => decide (e.1 = Q)) = true
  · rw [if_pos hc]
    simp only [true_iff]
    rw [List.any_eq_true] at hc
    obtain ⟨e, hmem, he⟩ := hc
    rw [decide_eq_true_eq] at he
    rw [mem_productList] at hmem
    obtain ⟨e1, h1, e2, h2, rfl⟩ := hmem
    exact ⟨e1, h1, e2, h2, shift_eq_Q_iff.mp he⟩
  · rw [if_neg hc]
    constructor
    · intro h
      cases h
    · rintro ⟨e1, h1, e2, h2, heq⟩
      exfalso
      apply hc
      rw [List.any_eq_true]
      refine ⟨(Q + e1.1 - e2.1, e1.2 * e2.2), mem_productList.mpr ⟨e1, h1, e2, h2, rfl⟩, ?_⟩
      rw [decide_eq_true_eq, shift_eq_Q_iff]
      exact heq

theorem gen_proof_ok_of_disjoint (s Q : ZMod r) (S1 S2 : List (ZMod r × ℕ))
    (hdisj : ∀ e1 ∈ S1, ∀ e2 ∈ S2, e1.1 ≠ e2.1) :
    gen_proof s Q S1 S2 =
      .ok ⟨((productList Q S1 S2).map (fun e => (e.2 : ZMod r) * s ^ e.1.val)).sum⟩ := by
  unfold gen_proof
  rw [if_neg]
  intro hc
  rw [List.any_eq_true] at hc
  obtain ⟨e, hmem, he⟩ := hc
  rw [decide_eq_true_eq] at he
  rw [mem_productList] at hmem
  obtain ⟨e1, h1, e2, h2, rfl⟩ := hmem
  exact hdisj e1 h1 e2 h2 (shift_eq_Q_iff.mp he)

theorem val_shift [NeZero r] {Bd : ℕ} {s Q a b : ZMod r} (ha : a.val ≤ Bd) (hb : b.val ≤ Bd)
    (hQ1 : Bd ≤ Q.val) (hQ2 : Q.val + Bd < r) :
    s ^ a.val * s ^ (Q - b).val = s ^ ((Q + a - b).val) := by
  have hbQ : b.val ≤ Q.val := le_trans hb hQ1
  have h1 : (Q - b).val = Q.val - b.val := ZMod.val_sub hbQ
  have h2 : Q + a - b = Q - b + a := by ring
  have h3 : (Q - b + a).val = (Q - b).val + a.val := by
    apply ZMod.val_add_of_lt
    rw [h1]
    omega
  rw [h2, h3, pow_add]
  ring

theorem pair_eq [NeZero r] (s Q : ZMod r) (S1 S2 : List (ZMod r × ℕ)) (Bd : ℕ)
    (hB1 : ∀ e ∈ S1, e.1.val ≤ Bd) (hB2 : ∀ e ∈ S2, e.1.val ≤ Bd)
    (hQ1 : Bd ≤ Q.val) (hQ2 : Q.val + Bd < r) :
    cal_acc_g1_d s S1 * cal_acc_g2_d s Q S2 =
      ((productList Q S1 S2).map (fun e => (e.2 : ZMod r) * s ^ e.1.val)).sum := by
  rw [productList_eq_bind, sum_map_bind]
  unfold cal_acc_g1_d cal_acc_g2_d
  revert hB1
  induction S1 with
  | nil =>
    intro _
    simp
  | cons e1 t ih =>
    intro hB1
    have hB1t : ∀ e ∈ t, e.1.val ≤ Bd := fun e he => hB1 e (List.mem_cons_of_mem _ he)
    have hB1h : e1.1.val ≤ Bd := hB1 e1 (List.mem_cons_self _ _)
    rw [List.map_cons, List.sum_cons, add_mul, List.map_cons, List.sum_cons, ih hB1t]
    congr 1
    rw [List.map_map, mul_sum_map]
    congr 1
    apply List.map_congr_left
    intro e2 he2
    simp only [Function.comp]
    rw [Nat.cast_mul, ← val_shift hB1h (hB2 e2 he2) hQ1 hQ2 (s := s)]
    ring

end Acc2


/-! ### ACC1 gcd reasoning -/

namespace Acc1

open PolyL DigestSet Polynomial

variable {K : Type} [Field K] [DecidableEq K]

theorem xgcd_expand_isSome (S1 S2 : List (K × ℕ)) :
    (PolyL.xgcd (expand_to_poly S1) (expand_to_poly S2)).isSome :=
  PolyL.xgcd_isSome _ _ (expand_trimmed S1)

/-- `gen_proof` never hits the `context("failed to compute xgcd")` branch and
is fully determined by the degree of the computed gcd. -/
theorem gen_proof_eq (s : K) (S1 S2 : List (K × ℕ)) :
    ∃ g u v, PolyL.xgcd (expand_to_poly S1) (expand_to_poly S2) = some (g, u, v) ∧
      gen_proof s S1 S2 = (if PolyL.degree g ≠ 0 then .error .cannotGenProof
        else .ok ⟨poly_to_g2 s (polyDivQ u g), poly_to_g2 s (polyDivQ v g)⟩) := by
  obtain ⟨⟨g, u, v⟩, hx⟩ := Option.isSome_iff_exists.mp (xgcd_expand_isSome S1 S2)
  refine ⟨g, u, v, hx, ?_⟩
  simp only [gen_proof, hx]

/-- A key shared by the two digest sets (with positive multiplicities) forces
the gcd of the expanded polynomials to have positive degree. -/
theorem sharedKey_degree_pos {S1 S2 : List (K × ℕ)} {k : K} {c1 c2 : ℕ}
    (h1 : (k, c1) ∈ S1) (h2 : (k, c2) ∈ S2) (hc1 : 1 ≤ c1) (hc2 : 1 ≤ c2)
    {g u v : List K}
    (hx : PolyL.xgcd (expand_to_poly S1) (expand_to_poly S2) = some (g, u, v)) :
    0 < PolyL.degree g := by
  have hdvd1 : (X + C k) ∣ toPoly (expand_to_poly S1) := by
    rw [toPoly_expand]
    refine dvd_trans (dvd_pow_self (X + C k) (by omega : c1 ≠ 0)) ?_
    apply List.dvd_prod
    rw [List.mem_map]
    exact ⟨(k, c1), h1, rfl⟩
  have hdvd2 : (X + C k) ∣ toPoly (expand_to_poly S2) := by
    rw [toPoly_expand]
    refine dvd_trans (dvd_pow_self (X + C k) (by omega : c2 ≠ 0)) ?_
    apply List.dvd_prod
    rw [List.mem_map]
    exact ⟨(k, c2), h2, rfl⟩
  have hbez := PolyL.xgcd_bezout hx
  have hgdvd : (X + C k) ∣ toPoly g := by
    rw [hbez]
    exact dvd_add (hdvd1.mul_right _) (hdvd2.mul_right _)
  have hdvdS1 := (PolyL.xgcd_dvd hx).1
  have hg0 : toPoly g ≠ 0 := by
    intro h0
    rw [h0] at hdvdS1
    exact toPoly_expand_ne_zero S1 (zero_dvd_iff.mp hdvdS1)
  have hdeg : 1 ≤ (toPoly g).natDegree := by
    have hle := Polynomial.natDegree_le_of_dvd hgdvd hg0
    rwa [Polynomial.natDegree_X_add_C] at hle
  have htrim : trim g = g :=
    PolyL.xgcd_g_trimmed (expand_trimmed S1) (expand_trimmed S2) hx
  have hne : g ≠ [] := by
    intro h0
    rw [h0] at hg0
    exact hg0 rfl
  rw [degree_eq_natDegree_of_trimmed htrim hne]
  omega

end Acc1

/-! ## Digest-to-field map (`src/vchain/src/acc/utils.rs`) -/

namespace DigestMap

/-- The BLS12-381 scalar-field modulus (255 bits, the order of `Fr`). -/
def FR_MODULUS : ℕ :=
  52435875175126190479447740508185965837690552500527637822603658699938581184513

/-- Big-endian integer value of a byte string (what
`from_be_bytes_mod_order` reduces). -/
def beBytesToNat (d : List ℕ) : ℕ := d.foldl (fun acc b => acc * 256 + b) 0

/-- The four little-endian 64-bit limbs of a `BigInteger256`. -/
def limbsOf (n : ℕ) : List ℕ :=
  [n % 2 ^ 64, n / 2 ^ 64 % 2 ^ 64, n / 2 ^ 128 % 2 ^ 64, n / 2 ^ 192 % 2 ^ 64]

/-- Recompose a little-endian limb vector into the integer it denotes. -/
def natOfLimbs (l : List ℕ) : ℕ := l.foldr (fun b acc => acc * 2 ^ 64 + b) 0

/-- `for v in num.as_mut().iter_mut().skip(3) { *v = 0 }`: zero every limb
from index 3 up. -/
def zeroLimbsFrom3 (l : List ℕ) : List ℕ := l.take 3 ++ (l.drop 3).map (fun _ => 0)

/-- `num.as_mut().get_mut(3).map(|v| *v &= 0x00ff_ffff_ffff_ffff)`: mask the
top byte of limb 3. -/
def maskLimb3 (l : List ℕ) : List ℕ := l.set 3 (l.getD 3 0 &&& 0x00ffffffffffffff)

/-- `try_digest_to_prime_field`: reduce the big-endian bytes mod `r`, zero the
limbs from index 3, apply the (now no-op) byte mask, and re-read the limbs via
`from_repr`, which yields `None` iff the value is not below the modulus. -/
def try_digest_to_prime_field (d : List ℕ) : Option ℕ :=
  let n := beBytesToNat d % FR_MODULUS
  let v := natOfLimbs (maskLimb3 (zeroLimbsFrom3 (limbsOf n)))
  if v < FR_MODULUS then some v else none

/-- Modelled from the spec: the claim's description of the map — interpret the
32 bytes as a big-endian integer, reduce mod the field modulus, then mask the
high limb by clearing only the top byte of the most-significant 64-bit limb. -/
def specDigestToField (d : List ℕ) : Option ℕ :=
  let n := beBytesToNat d % FR_MODULUS
  let v := natOfLimbs (maskLimb3 (limbsOf n))
  if v < FR_MODULUS then some v else none

theorem natOfLimbs_zeroed (n : ℕ) (hn : n < FR_MODULUS) :
    natOfLimbs (maskLimb3 (zeroLimbsFrom3 (limbsOf n))) = n % 2 ^ 192 := by
  have h1 : zeroLimbsFrom3 (limbsOf n) =
      [n % 2 ^ 64, n / 2 ^ 64 % 2 ^ 64, n / 2 ^ 128 % 2 ^ 64, 0] := rfl
  have h2 : maskLimb3 [n % 2 ^ 64, n / 2 ^ 64 % 2 ^ 64, n / 2 ^ 128 % 2 ^ 64, 0] =
      [n % 2 ^ 64, n / 2 ^ 64 % 2 ^ 64, n / 2 ^ 128 % 2 ^ 64, 0] := by
    unfold maskLimb3
    norm_num
  rw [h1, h2]
  show ((0 * 2 ^ 64 + n / 2 ^ 128 % 2 ^ 64) * 2 ^ 64 + n / 2 ^ 64 % 2 ^ 64) * 2 ^ 64 +
      n % 2 ^ 64 = n % 2 ^ 192
  have hlt : n < 2 ^ 256 := lt_trans hn (by norm_num [FR_MODULUS])
  omega

end DigestMap


/-! ## HashMap-backed multisets (`src/vchain/src/set.rs`) -/

/-- A `MultiSet<T>` (`HashMap<T, u32>`), modelled as an association list of
`(key, count)` entries.  `HashMap` equality is lookup equality (`sameAs`). -/
structure MSet (α : Type) where
  entries : List (α × ℕ)
deriving DecidableEq

namespace MSet

variable {α : Type} [DecidableEq α]

/-- First-match lookup on an entry list (`HashMap` lookup). -/
def lkL (l : List (α × ℕ)) (k : α) : Option ℕ :=
  (l.find? (fun e => decide (e.1 = k))).map (fun e => e.2)

/-- Total count of a key over an entry list. -/
def sumCnts (l : List (α × ℕ)) (k : α) : ℕ :=
  ((l.filter (fun e => decide (e.1 = k))).map (fun e => e.2)).sum

/-- The key list of an entry list. -/
def keysOf (l : List (α × ℕ)) : List α := l.map (fun e => e.1)

/-- `*data.entry(k).or_insert(0) += v`. -/
def addEntry : List (α × ℕ) → α → ℕ → List (α × ℕ)
  | [], k, v => [(k, v)]
  | e :: rest, k, v =>
    if e.1 = k then (e.1, e.2 + v) :: rest else e :: addEntry rest k v

/-- `data.entry(k).or_insert(1)`. -/
def insEntryOne : List (α × ℕ) → α → List (α × ℕ)
  | [], k => [(k, 1)]
  | e :: rest, k => if e.1 = k then e :: rest else e :: insEntryOne rest k

/-- `HashMap::insert(k, v)` (overwrite or append). -/
def setEntry : List (α × ℕ) → α → ℕ → List (α × ℕ)
  | [], k, v => [(k, v)]
  | e :: rest, k, v => if e.1 = k then (k, v) :: rest else e :: setEntry rest k v

def empty : MSet α := ⟨[]⟩

/-- `HashMap` lookup on a multiset. -/
def lk (s : MSet α) (k : α) : Option ℕ := lkL s.entries k

/-- `HashMap::contains_key`. -/
def containsKey (s : MSet α) (k : α) : Bool :=
  s.entries.any (fun e => decide (e.1 = k))

/-- `HashMap::len` (number of entries). -/
def size (s : MSet α) : ℕ := s.entries.length

/-- `&a + &b` (`Add`): chain both entry iterators, `or_insert(0) += v`. -/
def add (a b : MSet α) : MSet α :=
  ⟨(a.entries ++ b.entries).foldl (fun m e => addEntry m e.1 e.2) []⟩

/-- `&a | &b` (`BitOr`): chain both key iterators, `or_insert(1)`. -/
def union (a b : MSet α) : MSet α :=
  ⟨(keysOf a.entries ++ keysOf b.entries).foldl insEntryOne []⟩

/-- `&a & &b` (`BitAnd`): keys of `a` contained in `b`, inserted with `1`. -/
def inter (a b : MSet α) : MSet α :=
  ⟨(keysOf a.entries).foldl
    (fun m k => if b.containsKey k then setEntry m k 1 else m) []⟩

/-- `MultiSet::is_intersected_with`: probe the larger map with the smaller
map's keys. -/
def is_intersected_with (a b : MSet α) : Bool :=
  if a.size < b.size then a.entries.any (fun e => b.containsKey e.1)
  else b.entries.any (fun e => a.containsKey e.1)

/-- `MultiSet::insert` as used by `Range::to_bool_exp`
(`set_data.inner.insert(elem, 1)`). -/
def insertVal (s : MSet α) (k : α) (v : ℕ) : MSet α := ⟨setEntry s.entries k v⟩

/-- `FromIterator<T>`: each element increments its count by one. -/
def fromElems (l : List α) : MSet α := ⟨l.foldl (fun m k => addEntry m k 1) []⟩

/-- Lookup equality: the meaning of `HashMap` equality in this model. -/
def sameAs (a b : MSet α) : Prop := ∀ k, lk a k = lk b k

@[simp] theorem lkL_nil (k : α) : lkL ([] : List (α × ℕ)) k = none := rfl

theorem lkL_cons (e : α × ℕ) (l : List (α × ℕ)) (k : α) :
    lkL (e :: l) k = if e.1 = k then some e.2 else lkL l k := by
  by_cases h : e.1 = k <;> simp [lkL, List.find?, h]

theorem sumCnts_nil (k : α) : sumCnts ([] : List (α × ℕ)) k = 0 := rfl

theorem sumCnts_cons (e : α × ℕ) (l : List (α × ℕ)) (k : α) :
    sumCnts (e :: l) k = (if e.1 = k then e.2 else 0) + sumCnts l k := by
  by_cases h : e.1 = k <;> simp [sumCnts, h]

theorem sumCnts_append (l1 l2 : List (α × ℕ)) (k : α) :
    sumCnts (l1 ++ l2) k = sumCnts l1 k + sumCnts l2 k := by
  simp [sumCnts, List.filter_append]

theorem lkL_addEntry (l : List (α × ℕ)) (k0 : α) (v : ℕ) (k : α) :
    lkL (addEntry l k0 v) k =
      if k = k0 then some ((lkL l k0).getD 0 + v) else lkL l k := by
  induction l with
  | nil =>
    by_cases h : k = k0
    · simp [addEntry, lkL_cons, h]
    · have h2 : ¬ k0 = k := fun hh => h hh.symm
      simp [addEntry, lkL_cons, h, h2]
  | cons e l ih =>
    by_cases h1 : e.1 = k0
    · rw [addEntry, if_pos h1]
      by_cases h2 : k = k0
      · subst h2
        rw [if_pos rfl, lkL_cons, if_pos h1, lkL_cons, if_pos h1]
        rfl
      · rw [if_neg h2, lkL_cons, lkL_cons]
        have hek : e.1 = k ↔ False := by
          constructor
          · intro hh
            exact h2 (by rw [← hh, h1])
          · intro hh
            exact hh.elim
        rw [if_neg (by rw [hek]; exact id), if_neg (by rw [hek]; exact id)]
    · rw [addEntry, if_neg h1]
      by_cases h2 : k = k0
      · subst h2
        rw [if_pos rfl, lkL_cons]
        have hek : ¬ e.1 = k := h1
        rw [if_neg hek, ih, if_pos rfl, lkL_cons, if_neg hek]
      · rw [if_neg h2, lkL_cons, lkL_cons, ih, if_neg h2]

theorem sumCnts_addEntry (l : List (α × ℕ)) (k0 : α) (v : ℕ) (k : α) :
    sumCnts (addEntry l k0 v) k = sumCnts l k + (if k = k0 then v else 0) := by
  induction l with
  | nil =>
    by_cases h : k = k0
    · subst h
      simp [addEntry, sumCnts_cons, sumCnts_nil]
    · have h2 : ¬ k0 = k := fun hh => h hh.symm
      simp [addEntry, sumCnts_cons, sumCnts_nil, h, h2]
  | cons e l ih =>
    by_cases h1 : e.1 = k0
    · rw [addEntry, if_pos h1, sumCnts_cons, sumCnts_cons]
      by_cases h2 : k = k0
      · subst h2
        rw [if_pos h1, if_pos h1, if_pos rfl]
        omega
      · have hek : ¬ e.1 = k := fun hh => h2 (by rw [← hh, h1])
        rw [if_neg hek, if_neg hek, if_neg h2]
        omega
    · rw [addEntry, if_neg h1, sumCnts_cons, sumCnts_cons, ih]
      omega

theorem lkL_insEntryOne (l : List (α × ℕ)) (k0 : α) (k : α) :
    lkL (insEntryOne l k0) k =
      if k = k0 then some ((lkL l k0).getD 1) else lkL l k := by
  induction l with
  | nil =>
    by_cases h : k = k0
    · simp [insEntryOne, lkL_cons, h]
    · have h2 : ¬ k0 = k := fun hh => h hh.symm
      simp [insEntryOne, lkL_cons, h, h2]
  | cons e l ih =>
    by_cases h1 : e.1 = k0
    · rw [insEntryOne, if_pos h1]
      by_cases h2 : k = k0
      · subst h2
        rw [if_pos rfl, lkL_cons, if_pos h1]
        rfl
      · rw [if_neg h2]
    · rw [insEntryOne, if_neg h1]
      by_cases h2 : k = k0
      · subst h2
        have hek : ¬ e.1 = k := h1
        rw [if_pos rfl, lkL_cons, if_neg hek, lkL_cons, if_neg hek, ih, if_pos rfl]
      · rw [if_neg h2, lkL_cons, lkL_cons, ih, if_neg h2]

theorem lkL_setEntry (l : List (α × ℕ)) (k0 : α) (v : ℕ) (k : α) :
    lkL (setEntry l k0 v) k = if k = k0 then some v else lkL l k := by
  induction l with
  | nil =>
    by_cases h : k = k0
    · simp [setEntry, lkL_cons, h]
    · have h2 : ¬ k0 = k := fun hh => h hh.symm
      simp [setEntry, lkL_cons, h, h2]
  | cons e l ih =>
    by_cases h1 : e.1 = k0
    · rw [setEntry, if_pos h1]
      by_cases h2 : k = k0
      · subst h2
        rw [if_pos rfl, lkL_cons]
        simp
      · have hek : ¬ e.1 = k := fun hh => h2 (by rw [← hh, h1])
        rw [if_neg h2, lkL_cons, lkL_cons, if_neg hek]
        have hk0k : ¬ k0 = k := fun hh => h2 hh.symm
        simp [hk0k]
    · rw [setEntry, if_neg h1]
      by_cases h2 : k = k0
      · subst h2
        have hek : ¬ e.1 = k := h1
        rw [if_pos rfl, lkL_cons, if_neg hek, ih, if_pos rfl]
      · rw [if_neg h2, lkL_cons, lkL_cons, ih, if_neg h2]


theorem keysOf_cons (e : α × ℕ) (l : List (α × ℕ)) :
    keysOf (e :: l) = e.1 :: keysOf l := rfl

theorem keysOf_append (l1 l2 : List (α × ℕ)) :
    keysOf (l1 ++ l2) = keysOf l1 ++ keysOf l2 := by
  simp [keysOf]

theorem mem_keysOf_iff (l : List (α × ℕ)) (k : α) :
    k ∈ keysOf l ↔ (lkL l k).isSome = true := by
  induction l with
  | nil => simp [keysOf]
  | cons e l ih =>
    rw [keysOf_cons, List.mem_cons, lkL_cons]
    by_cases h : e.1 = k
    · simp [h]
    · have h2 : ¬ k = e.1 := fun hh => h hh.symm
      simp [h, h2, ih]

theorem lkL_foldl_addEntry (es : List (α × ℕ)) :
    ∀ (init : List (α × ℕ)) (k : α),
      lkL (es.foldl (fun m e => addEntry m e.1 e.2) init) k =
        if (lkL init k).isSome = true ∨ k ∈ keysOf es
        then some ((lkL init k).getD 0 + sumCnts es k) else none := by
  induction es with
  | nil =>
    intro init k
    cases h : lkL init k <;> simp [sumCnts_nil, keysOf, h]
  | cons e es ih =>
    intro init k
    rw [List.foldl_cons, ih (addEntry init e.1 e.2) k, lkL_addEntry, sumCnts_cons,
      keysOf_cons]
    by_cases hk : k = e.1
    · subst hk
      simp [List.mem_cons, Nat.add_assoc]
    · have hk2 : ¬ e.1 = k := fun hh => hk hh.symm
      rw [if_neg hk, if_neg hk2]
      simp [List.mem_cons, hk]

theorem sumCnts_foldl_addEntry (es : List (α × ℕ)) :
    ∀ (init : List (α × ℕ)) (k : α),
      sumCnts (es.foldl (fun m e => addEntry m e.1 e.2) init) k =
        sumCnts init k + sumCnts es k := by
  induction es with
  | nil =>
    intro init k
    simp [sumCnts_nil]
  | cons e es ih =>
    intro init k
    rw [List.foldl_cons, ih, sumCnts_addEntry, sumCnts_cons]
    by_cases hk : k = e.1
    · rw [if_pos hk, if_pos hk.symm]
      omega
    · have hk2 : ¬ e.1 = k := fun hh => hk hh.symm
      rw [if_neg hk, if_neg hk2]
      omega

theorem lkL_foldl_insEntryOne (ks : List α) :
    ∀ (init : List (α × ℕ)) (k : α),
      lkL (ks.foldl insEntryOne init) k =
        if k ∈ ks then some ((lkL init k).getD 1) else lkL init k := by
  induction ks with
  | nil =>
    intro init k
    simp
  | cons k0 ks ih =>
    intro init k
    rw [List.foldl_cons, ih (insEntryOne init k0) k, lkL_insEntryOne]
    by_cases hk : k = k0
    · subst hk
      simp [List.mem_cons]
    · simp [List.mem_cons, hk]

/-- Total count of a key in a multiset (sums over duplicate entries). -/
def tot (s : MSet α) (k : α) : ℕ := sumCnts s.entries k

theorem lk_empty (k : α) : lk (empty : MSet α) k = none := rfl

theorem tot_empty (k : α) : tot (empty : MSet α) k = 0 := rfl

theorem lk_add (a b : MSet α) (k : α) :
    lk (add a b) k =
      if (lk a k).isSome = true ∨ (lk b k).isSome = true
      then some (tot a k + tot b k) else none := by
  show lkL ((a.entries ++ b.entries).foldl (fun m e => addEntry m e.1 e.2) []) k = _
  rw [lkL_foldl_addEntry, keysOf_append]
  simp [List.mem_append, mem_keysOf_iff, sumCnts_append, tot, lk]

theorem tot_add (a b : MSet α) (k : α) :
    tot (add a b) k = tot a k + tot b k := by
  show sumCnts ((a.entries ++ b.entries).foldl (fun m e => addEntry m e.1 e.2) []) k = _
  rw [sumCnts_foldl_addEntry]
  simp [sumCnts_append, sumCnts_nil, tot]

theorem lk_union (a b : MSet α) (k : α) :
    lk (union a b) k =
      if (lk a k).isSome = true ∨ (lk b k).isSome = true then some 1 else none := by
  show lkL ((keysOf a.entries ++ keysOf b.entries).foldl insEntryOne []) k = _
  rw [lkL_foldl_insEntryOne]
  simp [List.mem_append, mem_keysOf_iff, lk]

theorem lk_foldl_union (l : List (MSet α)) :
    ∀ (init : MSet α) (k : α),
      lk (l.foldl union init) k =
        if l = [] then lk init k
        else if (lk init k).isSome = true ∨ ∃ s ∈ l, (lk s k).isSome = true
             then some 1 else none := by
  induction l with
  | nil =>
    intro init k
    simp
  | cons s0 l ih =>
    intro init k
    rw [List.foldl_cons, ih (union init s0) k]
    by_cases hl : l = []
    · subst hl
      simp [lk_union]
    · have hc : s0 :: l ≠ [] := List.cons_ne_nil s0 l
      rw [if_neg hl, if_neg hc, lk_union]
      by_cases h0 : (lk init k).isSome = true ∨ (lk s0 k).isSome = true
      · rw [if_pos h0]
        have hR : (lk init k).isSome = true ∨ ∃ s ∈ s0 :: l, (lk s k).isSome = true := by
          rcases h0 with h | h
          · exact Or.inl h
          · exact Or.inr ⟨s0, List.mem_cons_self s0 l, h⟩
        have hLc : ((some 1 : Option ℕ)).isSome = true ∨
            ∃ s ∈ l, (lk s k).isSome = true := Or.inl rfl
        rw [if_pos hR, if_pos hLc]
      · rw [if_neg h0]
        have hL : ((none : Option ℕ).isSome = true ∨ ∃ s ∈ l, (lk s k).isSome = true) ↔
            (∃ s ∈ l, (lk s k).isSome = true) := by simp
        have hR : ((lk init k).isSome = true ∨ ∃ s ∈ s0 :: l, (lk s k).isSome = true) ↔
            (∃ s ∈ l, (lk s k).isSome = true) := by
          constructor
          · rintro (h | ⟨s, hs, hss⟩)
            · exact absurd (Or.inl h) h0
            · rcases List.mem_cons.mp hs with rfl | hs2
              · exact absurd (Or.inr hss) h0
              · exact ⟨s, hs2, hss⟩
          · rintro ⟨s, hs, hss⟩
            exact Or.inr ⟨s, List.mem_cons_of_mem _ hs, hss⟩
        rw [if_congr hL rfl rfl, if_congr hR rfl rfl]

theorem lk_foldl_add (l : List (MSet α)) :
    ∀ (init : MSet α) (k : α),
      lk (l.foldl add init) k =
        if l = [] then lk init k
        else if (lk init k).isSome = true ∨ ∃ s ∈ l, (lk s k).isSome = true
             then some (tot init k + (l.map (fun s => tot s k)).sum) else none := by
  induction l with
  | nil =>
    intro init k
    simp
  | cons s0 l ih =>
    intro init k
    rw [List.foldl_cons, ih (add init s0) k]
    by_cases hl : l = []
    · subst hl
      simp [lk_add]
    · have hc : s0 :: l ≠ [] := List.cons_ne_nil s0 l
      rw [if_neg hl, if_neg hc, lk_add, tot_add]
      by_cases h0 : (lk init k).isSome = true ∨ (lk s0 k).isSome = true
      · rw [if_pos h0]
        have hR : (lk init k).isSome = true ∨ ∃ s ∈ s0 :: l, (lk s k).isSome = true := by
          rcases h0 with h | h
          · exact Or.inl h
          · exact Or.inr ⟨s0, List.mem_cons_self s0 l, h⟩
        have hLc : (some (tot init k + tot s0 k)).isSome = true ∨
            ∃ s ∈ l, (lk s k).isSome = true := Or.inl rfl
        rw [if_pos hR, if_pos hLc, List.map_cons, List.sum_cons, Nat.add_assoc]
      · rw [if_neg h0, List.map_cons, List.sum_cons, Nat.add_assoc]
        have hL : ((none : Option ℕ).isSome = true ∨ ∃ s ∈ l, (lk s k).isSome = true) ↔
            (∃ s ∈ l, (lk s k).isSome = true) := by simp
        have hR : ((lk init k).isSome = true ∨ ∃ s ∈ s0 :: l, (lk s k).isSome = true) ↔
            (∃ s ∈ l, (lk s k).isSome = true) := by
          constructor
          · rintro (h | ⟨s, hs, hss⟩)
            · exact absurd (Or.inl h) h0
            · rcases List.mem_cons.mp hs with rfl | hs2
              · exact absurd (Or.inr hss) h0
              · exact ⟨s, hs2, hss⟩
          · rintro ⟨s, hs, hss⟩
            exact Or.inr ⟨s, List.mem_cons_of_mem _ hs, hss⟩
        rw [if_congr hL rfl rfl, if_congr hR rfl rfl]

end MSet


/-! ## Skip list construction (`src/vchain/src/chain/build.rs`, lines 169-226) -/

/-- `acc::Type`. -/
inductive AccTy
  | acc1
  | acc2
deriving DecidableEq

/-- The set-aggregation operator the skip-list loop applies per accumulator
type: `|` (union) under ACC1, `+` (multiset sum) under ACC2. -/
def setOp {κ : Type} [DecidableEq κ] : AccTy → MSet κ → MSet κ → MSet κ
  | AccTy.acc1, a, b => MSet.union a b
  | AccTy.acc2, a, b => MSet.add a b

/-- Aggregate of a list of multisets, folded from the empty multiset. -/
def aggAll {κ : Type} [DecidableEq κ] (ty : AccTy) (l : List (MSet κ)) : MSet κ :=
  l.foldl (setOp ty) MSet.empty

/-- `skipped_blocks_num` (`src/vchain/src/chain/utils.rs`): `1 << (level + 2)`. -/
def skipped_blocks_num (level : ℕ) : ℕ := 2 ^ (level + 2)

/-- The mutable state of the skip-list loop in `build_block`:
`prev_blk_id`, `skipped_blk_num`, `set_data_to_skip`, `hash_to_skip`. -/
structure SkipSt (κ H : Type) where
  prevBlkId : ℕ
  skippedBlkNum : ℕ
  sd : MSet κ
  hashToSkip : H
deriving DecidableEq

/-- A skip-list node as persisted by `SkipListNode::create` (the fields the
claim speaks about: `level`, `set_data`, `pre_skipped_hash`). -/
structure SkipNode (κ H : Type) where
  level : ℕ
  sd : MSet κ
  hashToSkip : H
deriving DecidableEq

/-- The inner `while skipped_blk_num < blk_num` loop of `build_block`, run for
`n = blk_num - skipped_blk_num` iterations (each iteration increments
`skipped_blk_num` by one, so the iteration count is fixed up front).
`bdSet i` is block `i`'s `set_data`, `prevHash i` is block `i`'s header
`prev_hash`.  Headers exist for every block id `≥ 1` in a chain built
consecutively from block 1, so the only loop exit is `prev_blk_id == 0`,
which is `break 'outer` (returned flag `true`). -/
def skipAgg {κ H : Type} [DecidableEq κ] (ty : AccTy) (bdSet : ℕ → MSet κ)
    (prevHash : ℕ → H) : ℕ → SkipSt κ H → SkipSt κ H × Bool
  | 0, st => (st, false)
  | n + 1, st =>
    if st.prevBlkId = 0 then (st, true)
    else
      skipAgg ty bdSet prevHash n
        { prevBlkId := st.prevBlkId - 1
          skippedBlkNum := st.skippedBlkNum + 1
          sd := setOp ty st.sd (bdSet st.prevBlkId)
          hashToSkip := prevHash st.prevBlkId }

/-- The `for level in 0..skip_list_max_level` loop: at each level run the inner
loop up to that level's quota, then persist a `SkipListNode` -- unless the
inner loop hit `break 'outer`, which ends the whole loop without persisting a
node for the current level. -/
def skipLevels {κ H : Type} [DecidableEq κ] (ty : AccTy) (bdSet : ℕ → MSet κ)
    (prevHash : ℕ → H) : ℕ → ℕ → SkipSt κ H → List (SkipNode κ H)
  | 0, _, _ => []
  | rem + 1, lvl, st =>
    let res := skipAgg ty bdSet prevHash (skipped_blocks_num lvl - st.skippedBlkNum) st
    if res.2 then []
    else
      { level := lvl, sd := res.1.sd, hashToSkip := res.1.hashToSkip } ::
        skipLevels ty bdSet prevHash rem (lvl + 1) res.1

/-- The skip-list part of `build_block` for block `b`: guarded by
`skip_list_max_level > 0 && block_id >= 1`; the state starts at the previous
block with `skipped_blk_num = 1`, the current block's `set_data`, and
`hash_to_skip = Digest::default()` (`h0`). -/
def buildSkipList {κ H : Type} [DecidableEq κ] (ty : AccTy) (M : ℕ) (b : ℕ)
    (bdSet : ℕ → MSet κ) (prevHash : ℕ → H) (h0 : H) : List (SkipNode κ H) :=
  if 0 < M ∧ 1 ≤ b then
    skipLevels ty bdSet prevHash M 0
      { prevBlkId := b - 1, skippedBlkNum := 1, sd := bdSet b, hashToSkip := h0 }
  else []

/-- Block ids `p, p-1, ..., p-n+1` (the inner loop's processing order). -/
def descList (p : ℕ) : ℕ → List ℕ
  | 0 => []
  | n + 1 => p :: descList (p - 1) n

theorem descList_length (p n : ℕ) : (descList p n).length = n := by
  induction n generalizing p with
  | zero => rfl
  | succ n ih => simp [descList, ih]

theorem descList_append (m : ℕ) :
    ∀ (j p : ℕ), descList p j ++ descList (p - j) m = descList p (j + m) := by
  intro j
  induction j with
  | zero =>
    intro p
    simp [descList]
  | succ j ih =>
    intro p
    have h1 : p - (j + 1) = (p - 1) - j := by omega
    rw [descList, List.cons_append, h1, ih (p - 1)]
    have h2 : j + 1 + m = (j + m) + 1 := by omega
    rw [h2, descList]

theorem skipAgg_zero {κ H : Type} [DecidableEq κ] (ty : AccTy) (bdSet : ℕ → MSet κ)
    (prevHash : ℕ → H) (st : SkipSt κ H) :
    skipAgg ty bdSet prevHash 0 st = (st, false) := rfl

theorem skipAgg_succ {κ H : Type} [DecidableEq κ] (ty : AccTy) (bdSet : ℕ → MSet κ)
    (prevHash : ℕ → H) (n p s : ℕ) (sd0 : MSet κ) (hh : H) :
    skipAgg ty bdSet prevHash (n + 1) ⟨p, s, sd0, hh⟩ =
      if p = 0 then (⟨p, s, sd0, hh⟩, true)
      else
        skipAgg ty bdSet prevHash n
          ⟨p - 1, s + 1, setOp ty sd0 (bdSet p), prevHash p⟩ := rfl

/-- Inner loop, no-break case: with enough previous blocks (`n ≤ p`), the loop
processes blocks `p, p-1, ..., p-n+1` in order and never breaks. -/
theorem skipAgg_run {κ H : Type} [DecidableEq κ] (ty : AccTy) (bdSet : ℕ → MSet κ)
    (prevHash : ℕ → H) :
    ∀ (n p s : ℕ) (sd0 : MSet κ) (hh : H), n ≤ p →
      skipAgg ty bdSet prevHash n ⟨p, s, sd0, hh⟩ =
        (⟨p - n, s + n, ((descList p n).map bdSet).foldl (setOp ty) sd0,
          if n = 0 then hh else prevHash (p - n + 1)⟩, false) := by
  intro n
  induction n with
  | zero =>
    intro p s sd0 hh _
    rw [skipAgg_zero]
    simp [descList]
  | succ n ih =>
    intro p s sd0 hh h
    have hp : ¬ p = 0 := by omega
    rw [skipAgg_succ, if_neg hp,
      ih (p - 1) (s + 1) (setOp ty sd0 (bdSet p)) (prevHash p) (by omega)]
    congr 1
    congr 1
    · omega
    · omega
    · rw [if_neg (Nat.succ_ne_zero n)]
      by_cases hn : n = 0
      · subst hn
        rw [if_pos rfl]
        exact congrArg prevHash (by omega)
      · rw [if_neg hn]
        exact congrArg prevHash (by omega)

/-- Inner loop, break case: with too few previous blocks (`p < n`), the loop
processes blocks `p, ..., 1`, hits `prev_blk_id == 0`, and breaks out. -/
theorem skipAgg_break {κ H : Type} [DecidableEq κ] (ty : AccTy) (bdSet : ℕ → MSet κ)
    (prevHash : ℕ → H) :
    ∀ (n p s : ℕ) (sd0 : MSet κ) (hh : H), p < n →
      skipAgg ty bdSet prevHash n ⟨p, s, sd0, hh⟩ =
        (⟨0, s + p, ((descList p p).map bdSet).foldl (setOp ty) sd0,
          if p = 0 then hh else prevHash 1⟩, true) := by
  intro n
  induction n with
  | zero =>
    intro p s sd0 hh h
    omega
  | succ n ih =>
    intro p s sd0 hh h
    by_cases hp : p = 0
    · subst hp
      rw [skipAgg_succ, if_pos rfl]
      simp [descList]
    · obtain ⟨q, rfl⟩ : ∃ q, p = q + 1 := ⟨p - 1, by omega⟩
      rw [skipAgg_succ, if_neg hp]
      have hq1 : q + 1 - 1 = q := by omega
      rw [hq1, ih q (s + 1) (setOp ty sd0 (bdSet (q + 1))) (prevHash (q + 1)) (by omega)]
      congr 1
      congr 1
      · omega
      · rw [if_neg hp]
        by_cases hq : q = 0
        · subst hq
          rw [if_pos rfl]
        · rw [if_neg hq]

theorem skipLevels_zero {κ H : Type} [DecidableEq κ] (ty : AccTy) (bdSet : ℕ → MSet κ)
    (prevHash : ℕ → H) (lvl : ℕ) (st : SkipSt κ H) :
    skipLevels ty bdSet prevHash 0 lvl st = [] := rfl

theorem skipLevels_succ {κ H : Type} [DecidableEq κ] (ty : AccTy) (bdSet : ℕ → MSet κ)
    (prevHash : ℕ → H) (rem lvl p s : ℕ) (sd0 : MSet κ) (hh : H) :
    skipLevels ty bdSet prevHash (rem + 1) lvl ⟨p, s, sd0, hh⟩ =
      (if (skipAgg ty bdSet prevHash (skipped_blocks_num lvl - s) ⟨p, s, sd0, hh⟩).2
       then []
       else
        { level := lvl,
          sd := (skipAgg ty bdSet prevHash
            (skipped_blocks_num lvl - s) ⟨p, s, sd0, hh⟩).1.sd,
          hashToSkip := (skipAgg ty bdSet prevHash
            (skipped_blocks_num lvl - s) ⟨p, s, sd0, hh⟩).1.hashToSkip } ::
          skipLevels ty bdSet prevHash rem (lvl + 1)
            (skipAgg ty bdSet prevHash
              (skipped_blocks_num lvl - s) ⟨p, s, sd0, hh⟩).1) := rfl

/-- The node `build_block` persists at level `L` of block `b` (when one is
persisted at all): `set_data` aggregates block `b` and the `2^(L+2) - 1`
blocks before it, `pre_skipped_hash` is `prev_hash` of block
`b - 2^(L+2) + 1`. -/
def nodeAt {κ H : Type} [DecidableEq κ] (ty : AccTy) (bdSet : ℕ → MSet κ)
    (prevHash : ℕ → H) (b L : ℕ) : SkipNode κ H :=
  { level := L
    sd := ((descList (b - 1) (skipped_blocks_num L - 1)).map bdSet).foldl
      (setOp ty) (bdSet b)
    hashToSkip := prevHash (b - skipped_blocks_num L + 1) }


/-- The skip-list nodes the source persists for block `b` given `rem` levels
left, starting at level `lvl`: one node per level while the level's quota
`2^(level+2)` does not exceed `b`, then nothing. -/
def expectedNodes {κ H : Type} [DecidableEq κ] (ty : AccTy) (bdSet : ℕ → MSet κ)
    (prevHash : ℕ → H) (b : ℕ) : ℕ → ℕ → List (SkipNode κ H)
  | 0, _ => []
  | rem + 1, lvl =>
    if skipped_blocks_num lvl ≤ b then
      nodeAt ty bdSet prevHash b lvl ::
        expectedNodes ty bdSet prevHash b rem (lvl + 1)
    else []

theorem expectedNodes_succ {κ H : Type} [DecidableEq κ] (ty : AccTy)
    (bdSet : ℕ → MSet κ) (prevHash : ℕ → H) (b rem lvl : ℕ) :
    expectedNodes ty bdSet prevHash b (rem + 1) lvl =
      if skipped_blocks_num lvl ≤ b then
        nodeAt ty bdSet prevHash b lvl ::
          expectedNodes ty bdSet prevHash b rem (lvl + 1)
      else [] := rfl

theorem skipLevels_run {κ H : Type} [DecidableEq κ] (ty : AccTy) (bdSet : ℕ → MSet κ)
    (prevHash : ℕ → H) (b : ℕ) :
    ∀ (rem lvl s : ℕ) (hh : H), 1 ≤ s → s ≤ b → s < skipped_blocks_num lvl →
      skipLevels ty bdSet prevHash rem lvl
        ⟨b - s, s,
         ((descList (b - 1) (s - 1)).map bdSet).foldl (setOp ty) (bdSet b), hh⟩ =
      expectedNodes ty bdSet prevHash b rem lvl := by
  intro rem
  induction rem with
  | zero =>
    intro lvl s hh _ _ _
    rfl
  | succ rem ih =>
    intro lvl s hh hs1 hsb hsq
    rw [skipLevels_succ]
    by_cases hq : skipped_blocks_num lvl ≤ b
    · have hfuel : skipped_blocks_num lvl - s ≤ b - s := by omega
      rw [skipAgg_run ty bdSet prevHash (skipped_blocks_num lvl - s) (b - s) s _ hh hfuel]
      dsimp only
      rw [if_neg Bool.false_ne_true, expectedNodes_succ, if_pos hq]
      have esd : ((descList (b - s) (skipped_blocks_num lvl - s)).map bdSet).foldl
          (setOp ty)
          (((descList (b - 1) (s - 1)).map bdSet).foldl (setOp ty) (bdSet b)) =
          ((descList (b - 1) (skipped_blocks_num lvl - 1)).map bdSet).foldl
            (setOp ty) (bdSet b) := by
        rw [← List.foldl_append, ← List.map_append]
        have e1 : b - s = (b - 1) - (s - 1) := by omega
        rw [e1, descList_append]
        have e2 : (s - 1) + (skipped_blocks_num lvl - s) =
            skipped_blocks_num lvl - 1 := by omega
        rw [e2]
      have ehash : (if skipped_blocks_num lvl - s = 0 then hh
          else prevHash (b - s - (skipped_blocks_num lvl - s) + 1)) =
          prevHash (b - skipped_blocks_num lvl + 1) := by
        rw [if_neg (show ¬ skipped_blocks_num lvl - s = 0 by omega)]
        exact congrArg prevHash (by omega)
      have e3 : b - s - (skipped_blocks_num lvl - s) = b - skipped_blocks_num lvl := by
        omega
      have e4 : s + (skipped_blocks_num lvl - s) = skipped_blocks_num lvl := by omega
      rw [esd, ehash, e3, e4]
      congr 1
      have hq1 : 1 ≤ skipped_blocks_num lvl := Nat.two_pow_pos (lvl + 2)
      have hqlt : skipped_blocks_num lvl < skipped_blocks_num (lvl + 1) :=
        Nat.pow_lt_pow_right (by omega) (by omega)
      exact ih (lvl + 1) (skipped_blocks_num lvl)
        (prevHash (b - skipped_blocks_num lvl + 1)) hq1 hq hqlt
    · have hfuel2 : b - s < skipped_blocks_num lvl - s := by omega
      rw [skipAgg_break ty bdSet prevHash (skipped_blocks_num lvl - s) (b - s) s _ hh
        hfuel2]
      dsimp only
      rw [if_pos rfl, expectedNodes_succ, if_neg hq]

theorem buildSkipList_run {κ H : Type} [DecidableEq κ] (ty : AccTy) (M b : ℕ)
    (bdSet : ℕ → MSet κ) (prevHash : ℕ → H) (h0 : H) (h1 : 0 < M) (hb : 1 ≤ b) :
    buildSkipList ty M b bdSet prevHash h0 = expectedNodes ty bdSet prevHash b M 0 := by
  rw [buildSkipList, if_pos ⟨h1, hb⟩]
  have h := skipLevels_run ty bdSet prevHash b M 0 1 h0 (le_refl 1) hb
    (by rw [skipped_blocks_num]; omega)
  exact h


theorem expectedNodes_mem {κ H : Type} [DecidableEq κ] (ty : AccTy)
    (bdSet : ℕ → MSet κ) (prevHash : ℕ → H) (b : ℕ) :
    ∀ (rem lvl : ℕ) (nd : SkipNode κ H),
      nd ∈ expectedNodes ty bdSet prevHash b rem lvl →
        lvl ≤ nd.level ∧ nd.level < lvl + rem ∧ skipped_blocks_num nd.level ≤ b ∧
        nd = nodeAt ty bdSet prevHash b nd.level := by
  intro rem
  induction rem with
  | zero =>
    intro lvl nd h
    cases h
  | succ rem ih =>
    intro lvl nd h
    rw [expectedNodes_succ] at h
    by_cases hq : skipped_blocks_num lvl ≤ b
    · rw [if_pos hq] at h
      rcases List.mem_cons.mp h with rfl | h2
      · exact ⟨le_refl lvl, by change lvl < lvl + (rem + 1); omega, hq, rfl⟩
      · obtain ⟨h1, h2b, h3, h4⟩ := ih (lvl + 1) nd h2
        exact ⟨by omega, by omega, h3, h4⟩
    · rw [if_neg hq] at h
      cases h

theorem expectedNodes_complete {κ H : Type} [DecidableEq κ] (ty : AccTy)
    (bdSet : ℕ → MSet κ) (prevHash : ℕ → H) (b : ℕ) :
    ∀ (rem lvl L : ℕ), lvl ≤ L → L < lvl + rem → skipped_blocks_num L ≤ b →
      nodeAt ty bdSet prevHash b L ∈ expectedNodes ty bdSet prevHash b rem lvl := by
  intro rem
  induction rem with
  | zero =>
    intro lvl L h1 h2 _
    omega
  | succ rem ih =>
    intro lvl L h1 h2 h3
    have hq : skipped_blocks_num lvl ≤ b :=
      le_trans (Nat.pow_le_pow_right (by omega) (by omega)) h3
    rw [expectedNodes_succ, if_pos hq]
    by_cases hL : L = lvl
    · subst hL
      exact List.mem_cons_self _ _
    · exact List.mem_cons_of_mem _ (ih (lvl + 1) L (by omega) (by omega) h3)

/-- Folding the per-type set operator from `s0` and from `empty op s0` gives
lookup-equal results (over a nonempty list): the base case only differs by
entry bookkeeping that `HashMap` lookup cannot see. -/
theorem foldl_setOp_empty_sameAs {κ : Type} [DecidableEq κ] (ty : AccTy)
    (s0 : MSet κ) (l : List (MSet κ)) (hl : l ≠ []) :
    MSet.sameAs (l.foldl (setOp ty) s0)
      (l.foldl (setOp ty) (setOp ty MSet.empty s0)) := by
  intro k
  cases ty
  case acc1 =>
    have e : @setOp κ _ AccTy.acc1 = MSet.union := rfl
    rw [e, MSet.lk_foldl_union, MSet.lk_foldl_union, if_neg hl, if_neg hl]
    have hiff : ((MSet.lk (MSet.union MSet.empty s0) k).isSome = true ∨
        ∃ s ∈ l, (MSet.lk s k).isSome = true) ↔
        ((MSet.lk s0 k).isSome = true ∨ ∃ s ∈ l, (MSet.lk s k).isSome = true) := by
      rw [MSet.lk_union]
      by_cases hs : (MSet.lk s0 k).isSome = true <;> simp [MSet.lk_empty, hs]
    rw [if_congr hiff rfl rfl]
  case acc2 =>
    have e : @setOp κ _ AccTy.acc2 = MSet.add := rfl
    rw [e, MSet.lk_foldl_add, MSet.lk_foldl_add, if_neg hl, if_neg hl]
    have et : MSet.tot (MSet.add MSet.empty s0) k = MSet.tot s0 k := by
      rw [MSet.tot_add, MSet.tot_empty, Nat.zero_add]
    have hiff : ((MSet.lk (MSet.add MSet.empty s0) k).isSome = true ∨
        ∃ s ∈ l, (MSet.lk s k).isSome = true) ↔
        ((MSet.lk s0 k).isSome = true ∨ ∃ s ∈ l, (MSet.lk s k).isSome = true) := by
      rw [MSet.lk_add]
      by_cases hs : (MSet.lk s0 k).isSome = true <;> simp [MSet.lk_empty, hs]
    rw [et, if_congr hiff rfl rfl]

/-- C5 (amended): a `SkipListNode` persisted at level `L` for block `b` exists
exactly when `L < skip_list_max_level` and `2^(L+2) ≤ b`; it aggregates the
`2^(L+2)` blocks ending at and including `b` (not the blocks strictly
preceding `b`): its `set_data` is the union (ACC1) or multiset sum (ACC2) of
the `set_data` of blocks `b - 2^(L+2) + 1, ..., b`, and its
`pre_skipped_hash` is the `prev_hash` of block `b + 1 - 2^(L+2)`, the
earliest block in that window. -/
theorem C5_skip_list_window {κ H : Type} [DecidableEq κ] (ty : AccTy) (M b : ℕ)
    (bdSet : ℕ → MSet κ) (prevHash : ℕ → H) (h0 : H) :
    (∀ nd ∈ buildSkipList ty M b bdSet prevHash h0,
        nd.level < M ∧ skipped_blocks_num nd.level ≤ b ∧
        nd.hashToSkip = prevHash (b + 1 - skipped_blocks_num nd.level) ∧
        MSet.sameAs nd.sd
          (aggAll ty ((descList b (skipped_blocks_num nd.level)).map bdSet))) ∧
    (∀ L, L < M → skipped_blocks_num L ≤ b →
        ∃ nd ∈ buildSkipList ty M b bdSet prevHash h0, nd.level = L) := by
  constructor
  · intro nd hnd
    by_cases hg : 0 < M ∧ 1 ≤ b
    · rw [buildSkipList_run ty M b bdSet prevHash h0 hg.1 hg.2] at hnd
      obtain ⟨h1, h2, h3, h4⟩ := expectedNodes_mem ty bdSet prevHash b M 0 nd hnd
      have hh : nd.hashToSkip = prevHash (b - skipped_blocks_num nd.level + 1) := by
        conv_lhs => rw [h4]
        rfl
      have hsd : nd.sd = ((descList (b - 1) (skipped_blocks_num nd.level - 1)).map
          bdSet).foldl (setOp ty) (bdSet b) := by
        conv_lhs => rw [h4]
        rfl
      refine ⟨by omega, h3, ?_, ?_⟩
      · rw [hh]
        exact congrArg prevHash (by omega)
      · rw [hsd]
        have hq4 : 4 ≤ skipped_blocks_num nd.level := by
          have hp := Nat.pow_le_pow_right (show 0 < 2 by omega)
            (show 2 ≤ nd.level + 2 by omega)
          calc (4 : ℕ) = 2 ^ 2 := by norm_num
          _ ≤ 2 ^ (nd.level + 2) := hp
        obtain ⟨m, hm⟩ : ∃ m, skipped_blocks_num nd.level = m + 1 :=
          ⟨skipped_blocks_num nd.level - 1, by omega⟩
        rw [hm, Nat.add_sub_cancel]
        obtain ⟨mm, hmm⟩ : ∃ mm, m = mm + 1 := ⟨m - 1, by omega⟩
        have hne : (descList (b - 1) m).map bdSet ≠ [] := by
          rw [hmm]
          exact List.cons_ne_nil _ _
        show MSet.sameAs (((descList (b - 1) m).map bdSet).foldl (setOp ty) (bdSet b))
          (((descList (b - 1) m).map bdSet).foldl (setOp ty)
            (setOp ty MSet.empty (bdSet b)))
        exact foldl_setOp_empty_sameAs ty (bdSet b) _ hne
    · rw [buildSkipList, if_neg hg] at hnd
      cases hnd
  · intro L hL hq
    have hb : 1 ≤ b := le_trans (Nat.two_pow_pos (L + 2)) hq
    rw [buildSkipList_run ty M b bdSet prevHash h0 (by omega) hb]
    exact ⟨nodeAt ty bdSet prevHash b L,
      expectedNodes_complete ty bdSet prevHash b M 0 L (by omega) (by omega) hq, rfl⟩

/-- Example chain data for the skip-list claims: block `i` holds the single
key `i` once, header `prev_hash` of block `i` is the number `i`. -/
def exBdSet : ℕ → MSet ℕ := fun i => ⟨[(i, 1)]⟩

/-- Example header map: `prev_hash` of block `i` is `i` itself. -/
def exPrevHash : ℕ → ℕ := fun i => i

/-- C5 counterexample to the claimed window: at block 5 with one skip level,
the persisted level-0 node aggregates blocks 5,4,3,2 (including block 5), not
the `min(2^{0+2}, 5) = 4` blocks 4,3,2,1 immediately preceding block 5: key 5
is in the node's `set_data` but not in the claimed aggregate. -/
theorem C5_skip_list_window_counterexample :
    buildSkipList AccTy.acc1 1 5 exBdSet exPrevHash 99 =
      [{ level := 0, sd := ⟨[(5, 1), (4, 1), (3, 1), (2, 1)]⟩, hashToSkip := 2 }] ∧
    MSet.lk (⟨[(5, 1), (4, 1), (3, 1), (2, 1)]⟩ : MSet ℕ) 5 = some 1 ∧
    MSet.lk (aggAll AccTy.acc1
      ((descList (5 - 1) (min (skipped_blocks_num 0) 5)).map exBdSet)) 5 = none := by
  refine ⟨?_, ?_, ?_⟩ <;> decide

/-- C5 witness: the amended theorem applied at the concrete chain of
`C5_skip_list_window_counterexample`. -/
theorem C5_skip_list_window_witness :
    ((0 : ℕ) < 1 ∧ skipped_blocks_num 0 ≤ 5) ∧
    (∃ nd ∈ buildSkipList AccTy.acc1 1 5 exBdSet exPrevHash 99, nd.level = 0) :=
  ⟨⟨by decide, by decide⟩,
   (C5_skip_list_window AccTy.acc1 1 5 exBdSet exPrevHash 99).2 0 (by decide)
     (by decide)⟩


/-! ## Intra index construction (`src/vchain/src/chain/build.rs`, lines 29-149)

The builder repeatedly removes a `left` node (the one of maximal
`set_data.len()`) and a `right` node (the one of maximal Jaccard similarity
with `left`) and replaces them by a parent whose `set_data` is
`&left.set_data | &right.set_data`.  The selection depends on `f64`
similarity comparisons; it is modelled by abstract pick functions (clamped
into range with `%`), so every theorem below holds for the source's actual
choice as an instance.  `accF` abstracts `multiset_to_g1`; a node's ghost
field `childSds` records its children's `set_data` (the claim only speaks
about the children's sets). -/

/-- A node of the intra index: `set_data`, `acc_value`, and the recorded
children `set_data`s (`[]` for leaves and for the empty-block root). -/
structure NL (κ G : Type) where
  sd : MSet κ
  acc : G
  childSds : List (MSet κ)

/-- Placeholder node for out-of-range `getD` (never selected). -/
def dfltNL {κ G : Type} [DecidableEq κ] (accF : MSet κ → G) : NL κ G :=
  ⟨MSet.empty, accF MSet.empty, []⟩

/-- `set_data == union of children's set_data` in the claim's sense:
one child gives that child's set, two children give their `|`. -/
def unionChildren {κ : Type} [DecidableEq κ] : List (MSet κ) → MSet κ
  | [] => MSet.empty
  | c :: rest => rest.foldl MSet.union c

/-- A multiset all of whose counts are `1` (every `Object::create` set is:
`v_data_to_set` produces pairwise distinct elements and `w_data` is a
`HashSet`). -/
def ones {κ : Type} [DecidableEq κ] (s : MSet κ) : Prop :=
  ∀ k, MSet.lk s k = none ∨ MSet.lk s k = some 1

/-- Some node of the list holds key `k`. -/
def presIn {κ G : Type} [DecidableEq κ] (l : List (NL κ G)) (k : κ) : Prop :=
  ∃ nd ∈ l, (MSet.lk nd.sd k).isSome = true

/-- First `while !leaves.is_empty()` loop: pair leaves under new non-leaves;
a single leftover leaf is wrapped in a one-child non-leaf. -/
def phase1 {κ G : Type} [DecidableEq κ] (accF : MSet κ → G)
    (pickL : List (NL κ G) → ℕ) (pickR : NL κ G → List (NL κ G) → ℕ) :
    ℕ → List (NL κ G) → List (NL κ G)
  | 0, _ => []
  | _ + 1, [] => []
  | fuel + 1, a :: t =>
    let l := a :: t
    let left := l.getD (pickL l % l.length) (dfltNL accF)
    let rest := l.eraseIdx (pickL l % l.length)
    if rest.isEmpty then [⟨left.sd, left.acc, [left.sd]⟩]
    else
      let right := rest.getD (pickR left rest % rest.length) (dfltNL accF)
      let rest2 := rest.eraseIdx (pickR left rest % rest.length)
      ⟨MSet.union left.sd right.sd, accF (MSet.union left.sd right.sd),
        [left.sd, right.sd]⟩ :: phase1 accF pickL pickR fuel rest2

/-- Inner `while non_leaves.len() > 1` loop of the second phase: pair up
non-leaves, returning `(new_non_leaves, leftover)`. -/
def phase2round {κ G : Type} [DecidableEq κ] (accF : MSet κ → G)
    (pickL : List (NL κ G) → ℕ) (pickR : NL κ G → List (NL κ G) → ℕ) :
    ℕ → List (NL κ G) → List (NL κ G) × List (NL κ G)
  | 0, l => ([], l)
  | fuel + 1, l =>
    if l.length ≤ 1 then ([], l)
    else
      let left := l.getD (pickL l % l.length) (dfltNL accF)
      let rest := l.eraseIdx (pickL l % l.length)
      let right := rest.getD (pickR left rest % rest.length) (dfltNL accF)
      let rest2 := rest.eraseIdx (pickR left rest % rest.length)
      let res := phase2round accF pickL pickR fuel rest2
      (⟨MSet.union left.sd right.sd, accF (MSet.union left.sd right.sd),
        [left.sd, right.sd]⟩ :: res.1, res.2)

/-- Outer `while non_leaves.len() > 1` loop: run rounds until one node is
left, collecting every created node; `non_leaves.append(&mut new_non_leaves)`
makes the next round's list `leftover ++ created`. -/
def phase2 {κ G : Type} [DecidableEq κ] (accF : MSet κ → G)
    (pickL : List (NL κ G) → ℕ) (pickR : NL κ G → List (NL κ G) → ℕ) :
    ℕ → List (NL κ G) → List (NL κ G) × List (NL κ G)
  | 0, l => ([], l)
  | fuel + 1, l =>
    if l.length ≤ 1 then ([], l)
    else
      let r1 := phase2round accF pickL pickR l.length l
      let r2 := phase2 accF pickL pickR fuel (r1.2 ++ r1.1)
      (r1.1 ++ r2.1, r2.2)

/-- Intra-index part of `build_block`: leaves from the objects' `set_data`
(leaf `acc_value = multiset_to_g1(set_data)` by `Object::create`), phase 1,
phase 2, the empty-block root when nothing is left, and `pop()` of the last
remaining node as root.  Returns `(every non-leaf written, root)`. -/
def buildIntra {κ G : Type} [DecidableEq κ] (accF : MSet κ → G)
    (pickL1 pickL2 : List (NL κ G) → ℕ)
    (pickR1 pickR2 : NL κ G → List (NL κ G) → ℕ)
    (objSds : List (MSet κ)) : List (NL κ G) × NL κ G :=
  let leaves := objSds.map (fun s => (⟨s, accF s, []⟩ : NL κ G))
  let nls := phase1 accF pickL1 pickR1 leaves.length leaves
  let res := phase2 accF pickL2 pickR2 nls.length nls
  match (res.2).getLast? with
  | none =>
    (nls ++ res.1 ++ [⟨MSet.empty, accF MSet.empty, []⟩],
     ⟨MSet.empty, accF MSet.empty, []⟩)
  | some root => (nls ++ res.1, root)

theorem phase1_nil1 {κ G : Type} [DecidableEq κ] (accF : MSet κ → G)
    (pickL : List (NL κ G) → ℕ) (pickR : NL κ G → List (NL κ G) → ℕ) (fuel : ℕ) :
    phase1 accF pickL pickR fuel [] = [] := by
  cases fuel <;> rfl

theorem phase1_cons {κ G : Type} [DecidableEq κ] (accF : MSet κ → G)
    (pickL : List (NL κ G) → ℕ) (pickR : NL κ G → List (NL κ G) → ℕ) (fuel : ℕ)
    (a : NL κ G) (t : List (NL κ G)) :
    phase1 accF pickL pickR (fuel + 1) (a :: t) =
      (let l := a :: t
       let left := l.getD (pickL l % l.length) (dfltNL accF)
       let rest := l.eraseIdx (pickL l % l.length)
       if rest.isEmpty then [⟨left.sd, left.acc, [left.sd]⟩]
       else
         let right := rest.getD (pickR left rest % rest.length) (dfltNL accF)
         let rest2 := rest.eraseIdx (pickR left rest % rest.length)
         ⟨MSet.union left.sd right.sd, accF (MSet.union left.sd right.sd),
           [left.sd, right.sd]⟩ :: phase1 accF pickL pickR fuel rest2) := rfl

theorem phase2round_succ {κ G : Type} [DecidableEq κ] (accF : MSet κ → G)
    (pickL : List (NL κ G) → ℕ) (pickR : NL κ G → List (NL κ G) → ℕ) (fuel : ℕ)
    (l : List (NL κ G)) :
    phase2round accF pickL pickR (fuel + 1) l =
      (if l.length ≤ 1 then ([], l)
       else
        let left := l.getD (pickL l % l.length) (dfltNL accF)
        let rest := l.eraseIdx (pickL l % l.length)
        let right := rest.getD (pickR left rest % rest.length) (dfltNL accF)
        let rest2 := rest.eraseIdx (pickR left rest % rest.length)
        let res := phase2round accF pickL pickR fuel rest2
        (⟨MSet.union left.sd right.sd, accF (MSet.union left.sd right.sd),
          [left.sd, right.sd]⟩ :: res.1, res.2)) := rfl

theorem phase2_succ {κ G : Type} [DecidableEq κ] (accF : MSet κ → G)
    (pickL : List (NL κ G) → ℕ) (pickR : NL κ G → List (NL κ G) → ℕ) (fuel : ℕ)
    (l : List (NL κ G)) :
    phase2 accF pickL pickR (fuel + 1) l =
      (if l.length ≤ 1 then ([], l)
       else
        let r1 := phase2round accF pickL pickR l.length l
        let r2 := phase2 accF pickL pickR fuel (r1.2 ++ r1.1)
        (r1.1 ++ r2.1, r2.2)) := rfl

theorem mem_iff_eraseIdx {α : Type} (l : List α) (i : ℕ) (d : α) (x : α) :
    i < l.length →
    (x ∈ l ↔ x = l.getD i d ∨ x ∈ l.eraseIdx i) := by
  induction l generalizing i with
  | nil =>
    intro h
    cases h
  | cons a t ih =>
    intro h
    cases i with
    | zero =>
      simp [List.eraseIdx]
    | succ j =>
      have hj : j < t.length := by
        have := h
        simp at this
        omega
      rw [List.eraseIdx]
      rw [List.mem_cons, List.mem_cons, ih j hj]
      rw [List.getD_cons_succ]
      tauto

theorem presIn_nil {κ G : Type} [DecidableEq κ] (k : κ) :
    ¬ presIn ([] : List (NL κ G)) k := by
  rintro ⟨nd, hnd, _⟩
  cases hnd

theorem presIn_cons {κ G : Type} [DecidableEq κ] (a : NL κ G) (t : List (NL κ G))
    (k : κ) :
    presIn (a :: t) k ↔ (MSet.lk a.sd k).isSome = true ∨ presIn t k := by
  constructor
  · rintro ⟨nd, hnd, hp⟩
    rcases List.mem_cons.mp hnd with rfl | h2
    · exact Or.inl hp
    · exact Or.inr ⟨nd, h2, hp⟩
  · rintro (h | ⟨nd, hnd, hp⟩)
    · exact ⟨a, List.mem_cons_self a t, h⟩
    · exact ⟨nd, List.mem_cons_of_mem a hnd, hp⟩

theorem presIn_append {κ G : Type} [DecidableEq κ] (l1 l2 : List (NL κ G)) (k : κ) :
    presIn (l1 ++ l2) k ↔ presIn l1 k ∨ presIn l2 k := by
  constructor
  · rintro ⟨nd, hnd, hp⟩
    rcases List.mem_append.mp hnd with h | h
    · exact Or.inl ⟨nd, h, hp⟩
    · exact Or.inr ⟨nd, h, hp⟩
  · rintro (⟨nd, hnd, hp⟩ | ⟨nd, hnd, hp⟩)
    · exact ⟨nd, List.mem_append.mpr (Or.inl hnd), hp⟩
    · exact ⟨nd, List.mem_append.mpr (Or.inr hnd), hp⟩

theorem presIn_eraseIdx {κ G : Type} [DecidableEq κ] (l : List (NL κ G)) (i : ℕ)
    (d : NL κ G) (k : κ) (h : i < l.length) :
    presIn l k ↔
      (MSet.lk (l.getD i d).sd k).isSome = true ∨ presIn (l.eraseIdx i) k := by
  constructor
  · rintro ⟨nd, hnd, hp⟩
    rcases (mem_iff_eraseIdx l i d nd h).mp hnd with rfl | h2
    · exact Or.inl hp
    · exact Or.inr ⟨nd, h2, hp⟩
  · rintro (hp | ⟨nd, hnd, hp⟩)
    · refine ⟨l.getD i d, ?_, hp⟩
      exact (mem_iff_eraseIdx l i d _ h).mpr (Or.inl rfl)
    · exact ⟨nd, (mem_iff_eraseIdx l i d nd h).mpr (Or.inr hnd), hp⟩

theorem isSome_lk_union {κ : Type} [DecidableEq κ] (a b : MSet κ) (k : κ) :
    (MSet.lk (MSet.union a b) k).isSome = true ↔
      (MSet.lk a k).isSome = true ∨ (MSet.lk b k).isSome = true := by
  rw [MSet.lk_union]
  by_cases h : (MSet.lk a k).isSome = true ∨ (MSet.lk b k).isSome = true
  · rw [if_pos h]
    simp [h]
  · rw [if_neg h]
    simp [h]

theorem ones_union {κ : Type} [DecidableEq κ] (a b : MSet κ) :
    ones (MSet.union a b) := by
  intro k
  rw [MSet.lk_union]
  by_cases h : (MSet.lk a k).isSome = true ∨ (MSet.lk b k).isSome = true
  · rw [if_pos h]
    exact Or.inr rfl
  · rw [if_neg h]
    exact Or.inl rfl


theorem length_eraseIdx_lt {α : Type} (l : List α) (i : ℕ) (h : i < l.length) :
    (l.eraseIdx i).length = l.length - 1 := by
  rw [List.length_eraseIdx]
  simp [h]

theorem phase1_spec {κ G : Type} [DecidableEq κ] (accF : MSet κ → G)
    (pickL : List (NL κ G) → ℕ) (pickR : NL κ G → List (NL κ G) → ℕ) :
    ∀ (fuel : ℕ) (l : List (NL κ G)),
      l.length ≤ fuel →
      (∀ nd ∈ l, nd.acc = accF nd.sd ∧ ones nd.sd) →
      (∀ nd ∈ phase1 accF pickL pickR fuel l,
         nd.sd = unionChildren nd.childSds ∧ nd.acc = accF nd.sd ∧ ones nd.sd) ∧
      (∀ k, presIn (phase1 accF pickL pickR fuel l) k ↔ presIn l k) ∧
      (phase1 accF pickL pickR fuel l = [] ↔ l = []) := by
  intro fuel
  induction fuel with
  | zero =>
    intro l hlen hinv
    have hl : l = [] := List.eq_nil_of_length_eq_zero (by omega)
    subst hl
    rw [phase1_nil1]
    exact ⟨fun nd hnd => absurd hnd (List.not_mem_nil nd), fun k => Iff.rfl, Iff.rfl⟩
  | succ fuel ih =>
    intro l hlen hinv
    cases l with
    | nil =>
      rw [phase1_nil1]
      exact ⟨fun nd hnd => absurd hnd (List.not_mem_nil nd), fun k => Iff.rfl, Iff.rfl⟩
    | cons a t =>
      rw [phase1_cons]
      dsimp only
      have hli : pickL (a :: t) % (a :: t).length < (a :: t).length :=
        Nat.mod_lt _ (by simp)
      generalize hI : pickL (a :: t) % (a :: t).length = li at hli ⊢
      have hleft_mem : (a :: t).getD li (dfltNL accF) ∈ (a :: t) :=
        (mem_iff_eraseIdx _ li (dfltNL accF) _ hli).mpr (Or.inl rfl)
      have hrest_len : ((a :: t).eraseIdx li).length = (a :: t).length - 1 :=
        length_eraseIdx_lt _ li hli
      have hrest_sub : ∀ x ∈ (a :: t).eraseIdx li, x ∈ (a :: t) :=
        fun x hx => (mem_iff_eraseIdx _ li (dfltNL accF) x hli).mpr (Or.inr hx)
      by_cases hre : ((a :: t).eraseIdx li).isEmpty
      · rw [if_pos hre]
        have hrest_nil : (a :: t).eraseIdx li = [] := List.isEmpty_iff.mp hre
        refine ⟨?_, ?_, ?_⟩
        · intro nd hnd
          rcases List.mem_cons.mp hnd with rfl | h2
          · exact ⟨rfl, (hinv _ hleft_mem).1, (hinv _ hleft_mem).2⟩
          · exact absurd h2 (List.not_mem_nil nd)
        · intro k
          rw [presIn_cons, presIn_eraseIdx (a :: t) li (dfltNL accF) k hli,
            hrest_nil]
        · simp
      · rw [if_neg hre]
        have hrest_ne : (a :: t).eraseIdx li ≠ [] :=
          fun hh => hre (by rw [hh]; rfl)
        have hrl0 : 0 < ((a :: t).eraseIdx li).length := List.length_pos.mpr hrest_ne
        have hri : pickR ((a :: t).getD li (dfltNL accF)) ((a :: t).eraseIdx li) %
            ((a :: t).eraseIdx li).length < ((a :: t).eraseIdx li).length :=
          Nat.mod_lt _ hrl0
        generalize hJ : pickR ((a :: t).getD li (dfltNL accF)) ((a :: t).eraseIdx li) %
            ((a :: t).eraseIdx li).length = ri at hri ⊢
        have hright_mem : ((a :: t).eraseIdx li).getD ri (dfltNL accF) ∈
            (a :: t).eraseIdx li :=
          (mem_iff_eraseIdx _ ri (dfltNL accF) _ hri).mpr (Or.inl rfl)
        have hrest2_sub : ∀ x ∈ ((a :: t).eraseIdx li).eraseIdx ri,
            x ∈ (a :: t).eraseIdx li :=
          fun x hx => (mem_iff_eraseIdx _ ri (dfltNL accF) x hri).mpr (Or.inr hx)
        have hrest2_len : (((a :: t).eraseIdx li).eraseIdx ri).length ≤ fuel := by
          rw [length_eraseIdx_lt _ ri hri, hrest_len]
          simp only [List.length_cons] at hlen ⊢
          omega
        obtain ⟨ih1, ih2, ih3⟩ := ih (((a :: t).eraseIdx li).eraseIdx ri) hrest2_len
          (fun nd hnd => hinv nd (hrest_sub _ (hrest2_sub _ hnd)))
        refine ⟨?_, ?_, ?_⟩
        · intro nd hnd
          rcases List.mem_cons.mp hnd with rfl | h2
          · exact ⟨rfl, rfl, ones_union _ _⟩
          · exact ih1 nd h2
        · intro k
          rw [presIn_cons, ih2 k, isSome_lk_union,
            presIn_eraseIdx (a :: t) li (dfltNL accF) k hli,
            presIn_eraseIdx ((a :: t).eraseIdx li) ri (dfltNL accF) k hri]
          tauto
        · simp


theorem phase2round_spec {κ G : Type} [DecidableEq κ] (accF : MSet κ → G)
    (pickL : List (NL κ G) → ℕ) (pickR : NL κ G → List (NL κ G) → ℕ) :
    ∀ (fuel : ℕ) (l : List (NL κ G)),
      l.length ≤ fuel →
      (∀ nd ∈ l, nd.acc = accF nd.sd ∧ ones nd.sd) →
      (∀ nd ∈ (phase2round accF pickL pickR fuel l).1,
         nd.sd = unionChildren nd.childSds ∧ nd.acc = accF nd.sd ∧ ones nd.sd) ∧
      (∀ nd ∈ (phase2round accF pickL pickR fuel l).2, nd ∈ l) ∧
      ((phase2round accF pickL pickR fuel l).2.length ≤ 1) ∧
      (2 * (phase2round accF pickL pickR fuel l).1.length +
        (phase2round accF pickL pickR fuel l).2.length = l.length) ∧
      (∀ k, presIn ((phase2round accF pickL pickR fuel l).2 ++
          (phase2round accF pickL pickR fuel l).1) k ↔ presIn l k) := by
  intro fuel
  induction fuel with
  | zero =>
    intro l hlen hinv
    have hl : l = [] := List.eq_nil_of_length_eq_zero (by omega)
    subst hl
    exact ⟨fun nd hnd => absurd hnd (List.not_mem_nil nd), fun nd hnd => hnd,
      by simp [phase2round], by simp [phase2round], fun k => Iff.rfl⟩
  | succ fuel ih =>
    intro l hlen hinv
    rw [phase2round_succ]
    by_cases hl1 : l.length ≤ 1
    · rw [if_pos hl1]
      refine ⟨fun nd hnd => absurd hnd (List.not_mem_nil nd), fun nd hnd => hnd,
        hl1, by simp, fun k => ?_⟩
      dsimp only
      rw [List.append_nil]
    · rw [if_neg hl1]
      dsimp only
      have hli : pickL l % l.length < l.length := Nat.mod_lt _ (by omega)
      generalize hI : pickL l % l.length = li at hli ⊢
      have hleft_mem : l.getD li (dfltNL accF) ∈ l :=
        (mem_iff_eraseIdx _ li (dfltNL accF) _ hli).mpr (Or.inl rfl)
      have hrest_len : (l.eraseIdx li).length = l.length - 1 :=
        length_eraseIdx_lt _ li hli
      have hrest_sub : ∀ x ∈ l.eraseIdx li, x ∈ l :=
        fun x hx => (mem_iff_eraseIdx _ li (dfltNL accF) x hli).mpr (Or.inr hx)
      have hrl0 : 0 < (l.eraseIdx li).length := by omega
      have hri : pickR (l.getD li (dfltNL accF)) (l.eraseIdx li) %
          (l.eraseIdx li).length < (l.eraseIdx li).length := Nat.mod_lt _ hrl0
      generalize hJ : pickR (l.getD li (dfltNL accF)) (l.eraseIdx li) %
          (l.eraseIdx li).length = ri at hri ⊢
      have hright_mem : (l.eraseIdx li).getD ri (dfltNL accF) ∈ l.eraseIdx li :=
        (mem_iff_eraseIdx _ ri (dfltNL accF) _ hri).mpr (Or.inl rfl)
      have hrest2_sub : ∀ x ∈ (l.eraseIdx li).eraseIdx ri, x ∈ l.eraseIdx li :=
        fun x hx => (mem_iff_eraseIdx _ ri (dfltNL accF) x hri).mpr (Or.inr hx)
      have hrest2_len0 : ((l.eraseIdx li).eraseIdx ri).length = l.length - 2 := by
        rw [length_eraseIdx_lt _ ri hri, hrest_len]
        omega
      have hrest2_len : ((l.eraseIdx li).eraseIdx ri).length ≤ fuel := by omega
      obtain ⟨ih1, ih2, ih3, ih4, ih5⟩ := ih ((l.eraseIdx li).eraseIdx ri) hrest2_len
        (fun nd hnd => hinv nd (hrest_sub _ (hrest2_sub _ hnd)))
      refine ⟨?_, ?_, ih3, ?_, ?_⟩
      · intro nd hnd
        rcases List.mem_cons.mp hnd with rfl | h2
        · exact ⟨rfl, rfl, ones_union _ _⟩
        · exact ih1 nd h2
      · intro nd hnd
        exact hrest_sub _ (hrest2_sub _ (ih2 nd hnd))
      · dsimp only
        rw [List.length_cons]
        omega
      · intro k
        have hstep :
            presIn ((phase2round accF pickL pickR fuel
                ((l.eraseIdx li).eraseIdx ri)).2 ++
              (phase2round accF pickL pickR fuel ((l.eraseIdx li).eraseIdx ri)).1) k ↔
            presIn ((l.eraseIdx li).eraseIdx ri) k := ih5 k
        rw [presIn_append] at hstep
        rw [presIn_append, presIn_cons, isSome_lk_union,
          presIn_eraseIdx l li (dfltNL accF) k hli,
          presIn_eraseIdx (l.eraseIdx li) ri (dfltNL accF) k hri]
        tauto

theorem phase2_spec {κ G : Type} [DecidableEq κ] (accF : MSet κ → G)
    (pickL : List (NL κ G) → ℕ) (pickR : NL κ G → List (NL κ G) → ℕ) :
    ∀ (fuel : ℕ) (l : List (NL κ G)),
      l.length ≤ fuel →
      (∀ nd ∈ l, nd.acc = accF nd.sd ∧ ones nd.sd) →
      (∀ nd ∈ (phase2 accF pickL pickR fuel l).1,
         nd.sd = unionChildren nd.childSds ∧ nd.acc = accF nd.sd ∧ ones nd.sd) ∧
      ((phase2 accF pickL pickR fuel l).2.length ≤ 1) ∧
      (∀ nd ∈ (phase2 accF pickL pickR fuel l).2,
         nd ∈ l ∨ nd ∈ (phase2 accF pickL pickR fuel l).1) ∧
      ((phase2 accF pickL pickR fuel l).2 = [] ↔ l = []) ∧
      (∀ k, presIn (phase2 accF pickL pickR fuel l).2 k ↔ presIn l k) := by
  intro fuel
  induction fuel with
  | zero =>
    intro l hlen hinv
    have hl : l = [] := List.eq_nil_of_length_eq_zero (by omega)
    subst hl
    exact ⟨fun nd hnd => absurd hnd (List.not_mem_nil nd), by simp [phase2],
      fun nd hnd => Or.inl hnd, by simp [phase2], fun k => Iff.rfl⟩
  | succ fuel ih =>
    intro l hlen hinv
    rw [phase2_succ]
    by_cases hl1 : l.length ≤ 1
    · rw [if_pos hl1]
      refine ⟨fun nd hnd => absurd hnd (List.not_mem_nil nd), hl1,
        fun nd hnd => Or.inl hnd, Iff.rfl, fun k => Iff.rfl⟩
    · rw [if_neg hl1]
      dsimp only
      obtain ⟨r1, r2, r3, r4, r5⟩ := phase2round_spec accF pickL pickR l.length l
        (le_refl _) hinv
      have hinv2 : ∀ nd ∈ (phase2round accF pickL pickR l.length l).2 ++
          (phase2round accF pickL pickR l.length l).1,
          nd.acc = accF nd.sd ∧ ones nd.sd := by
        intro nd hnd
        rcases List.mem_append.mp hnd with h | h
        · exact hinv nd (r2 nd h)
        · exact ⟨(r1 nd h).2.1, (r1 nd h).2.2⟩
      have hcre1 : 1 ≤ (phase2round accF pickL pickR l.length l).1.length := by
        omega
      have hlen2 : ((phase2round accF pickL pickR l.length l).2 ++
          (phase2round accF pickL pickR l.length l).1).length ≤ fuel := by
        rw [List.length_append]
        omega
      obtain ⟨ih1, ih2, ih3, ih4, ih5⟩ := ih
        ((phase2round accF pickL pickR l.length l).2 ++
          (phase2round accF pickL pickR l.length l).1) hlen2 hinv2
      refine ⟨?_, ih2, ?_, ?_, ?_⟩
      · intro nd hnd
        rcases List.mem_append.mp hnd with h | h
        · exact r1 nd h
        · exact ih1 nd h
      · intro nd hnd
        rcases ih3 nd hnd with h | h
        · rcases List.mem_append.mp h with h2 | h2
          · exact Or.inl (r2 nd h2)
          · exact Or.inr (List.mem_append.mpr (Or.inl h2))
        · exact Or.inr (List.mem_append.mpr (Or.inr h))
      · constructor
        · intro h
          have h2 := ih4.mp h
          have h3 : ((phase2round accF pickL pickR l.length l).2 ++
              (phase2round accF pickL pickR l.length l).1).length = 0 := by
            rw [h2]
            rfl
          rw [List.length_append] at h3
          omega
        · intro h
          subst h
          simp at hl1
      · intro k
        rw [ih5 k, presIn_append]
        have h5 := r5 k
        rw [presIn_append] at h5
        exact h5


theorem eq_singleton_of_getLast {α : Type} (l : List α) (x : α)
    (h : l.getLast? = some x) (hlen : l.length ≤ 1) : l = [x] := by
  cases l with
  | nil => cases h
  | cons a t =>
    have ht : t = [] := by
      rw [List.length_cons] at hlen
      exact List.eq_nil_of_length_eq_zero (by omega)
    subst ht
    have h2 : some a = some x := h
    have h3 : a = x := by
      injection h2
    rw [h3]

/-- C7: built with `intra_index` on, every persisted `IntraIndexNonLeaf` has
`set_data` equal to the union of its children's `set_data` and
`acc_value = multiset_to_g1(set_data)` (`accF` abstracts `multiset_to_g1`);
the root's `set_data` is lookup-equal to the union of all object (leaf) sets;
a block with no objects gets a childless root with the empty set.  The object
sets are 0/1-valued as produced by `Object::create`. -/
theorem C7_intra_index {κ G : Type} [DecidableEq κ] (accF : MSet κ → G)
    (pickL1 pickL2 : List (NL κ G) → ℕ)
    (pickR1 pickR2 : NL κ G → List (NL κ G) → ℕ)
    (objSds : List (MSet κ)) (h01 : ∀ s ∈ objSds, ones s) :
    (∀ nd ∈ (buildIntra accF pickL1 pickL2 pickR1 pickR2 objSds).1,
        nd.sd = unionChildren nd.childSds ∧ nd.acc = accF nd.sd) ∧
    MSet.sameAs (buildIntra accF pickL1 pickL2 pickR1 pickR2 objSds).2.sd
      (objSds.foldl MSet.union MSet.empty) ∧
    (objSds = [] →
      (buildIntra accF pickL1 pickL2 pickR1 pickR2 objSds).2.childSds = [] ∧
      (buildIntra accF pickL1 pickL2 pickR1 pickR2 objSds).2.sd = MSet.empty) := by
  have hlinv : ∀ nd ∈ (objSds.map (fun s => (⟨s, accF s, []⟩ : NL κ G))), nd.acc = accF nd.sd ∧ ones nd.sd := by
    intro nd hnd
    obtain ⟨sv, hs, rfl⟩ := List.mem_map.mp hnd
    exact ⟨rfl, h01 sv hs⟩
  have hplv : ∀ k, presIn (objSds.map (fun s => (⟨s, accF s, []⟩ : NL κ G))) k ↔ ∃ s ∈ objSds, (MSet.lk s k).isSome = true := by
    intro k
    constructor
    · rintro ⟨nd, hnd, hp⟩
      obtain ⟨sv, hs, rfl⟩ := List.mem_map.mp hnd
      exact ⟨sv, hs, hp⟩
    · rintro ⟨sv, hs, hp⟩
      exact ⟨⟨sv, accF sv, []⟩, List.mem_map.mpr ⟨sv, hs, rfl⟩, hp⟩
  obtain ⟨p11, p12, p13⟩ := phase1_spec accF pickL1 pickR1 (objSds.map (fun s => (⟨s, accF s, []⟩ : NL κ G))).length (objSds.map (fun s => (⟨s, accF s, []⟩ : NL κ G)))
    (le_refl _) hlinv
  obtain ⟨p21, p22, p23, p24, p25⟩ := phase2_spec accF pickL2 pickR2 (phase1 accF pickL1 pickR1 (objSds.map (fun s => (⟨s, accF s, []⟩ : NL κ G))).length (objSds.map (fun s => (⟨s, accF s, []⟩ : NL κ G)))).length (phase1 accF pickL1 pickR1 (objSds.map (fun s => (⟨s, accF s, []⟩ : NL κ G))).length (objSds.map (fun s => (⟨s, accF s, []⟩ : NL κ G))))
    (le_refl _) (fun nd hnd => ⟨(p11 nd hnd).2.1, (p11 nd hnd).2.2⟩)
  unfold buildIntra
  dsimp only
  split
  · next hg =>
    have hres : (phase2 accF pickL2 pickR2 (phase1 accF pickL1 pickR1 (objSds.map (fun s => (⟨s, accF s, []⟩ : NL κ G))).length (objSds.map (fun s => (⟨s, accF s, []⟩ : NL κ G)))).length (phase1 accF pickL1 pickR1 (objSds.map (fun s => (⟨s, accF s, []⟩ : NL κ G))).length (objSds.map (fun s => (⟨s, accF s, []⟩ : NL κ G))))).2 = [] := by
      rcases hx : (phase2 accF pickL2 pickR2 (phase1 accF pickL1 pickR1 (objSds.map (fun s => (⟨s, accF s, []⟩ : NL κ G))).length (objSds.map (fun s => (⟨s, accF s, []⟩ : NL κ G)))).length (phase1 accF pickL1 pickR1 (objSds.map (fun s => (⟨s, accF s, []⟩ : NL κ G))).length (objSds.map (fun s => (⟨s, accF s, []⟩ : NL κ G))))).2 with _ | ⟨x, xs⟩
      · rfl
      · rw [hx] at hg
        simp [List.getLast?_eq_none_iff] at hg
    have hnls : (phase1 accF pickL1 pickR1 (objSds.map (fun s => (⟨s, accF s, []⟩ : NL κ G))).length (objSds.map (fun s => (⟨s, accF s, []⟩ : NL κ G)))) = [] := p24.mp hres
    have hlv : (objSds.map (fun s => (⟨s, accF s, []⟩ : NL κ G))) = [] := p13.mp hnls
    have hobj : objSds = [] := by
      rcases objSds with _ | ⟨y, ys⟩
      · rfl
      · simp at hlv
    refine ⟨?_, ?_, fun _ => ⟨rfl, rfl⟩⟩
    · intro nd hnd
      rcases List.mem_append.mp hnd with h | h
      · rcases List.mem_append.mp h with h2 | h2
        · exact ⟨(p11 nd h2).1, (p11 nd h2).2.1⟩
        · exact ⟨(p21 nd h2).1, (p21 nd h2).2.1⟩
      · rcases List.mem_cons.mp h with rfl | h2
        · exact ⟨rfl, rfl⟩
        · exact absurd h2 (List.not_mem_nil nd)
    · subst hobj
      intro k
      rfl
  · next root hg =>
    have hsing : (phase2 accF pickL2 pickR2 (phase1 accF pickL1 pickR1 (objSds.map (fun s => (⟨s, accF s, []⟩ : NL κ G))).length (objSds.map (fun s => (⟨s, accF s, []⟩ : NL κ G)))).length (phase1 accF pickL1 pickR1 (objSds.map (fun s => (⟨s, accF s, []⟩ : NL κ G))).length (objSds.map (fun s => (⟨s, accF s, []⟩ : NL κ G))))).2 = [root] := eq_singleton_of_getLast _ root hg p22
    have hroot_mem : root ∈ (phase2 accF pickL2 pickR2 (phase1 accF pickL1 pickR1 (objSds.map (fun s => (⟨s, accF s, []⟩ : NL κ G))).length (objSds.map (fun s => (⟨s, accF s, []⟩ : NL κ G)))).length (phase1 accF pickL1 pickR1 (objSds.map (fun s => (⟨s, accF s, []⟩ : NL κ G))).length (objSds.map (fun s => (⟨s, accF s, []⟩ : NL κ G))))).2 := by
      rw [hsing]
      exact List.mem_cons_self root []
    have hprops : root.sd = unionChildren root.childSds ∧
        root.acc = accF root.sd ∧ ones root.sd := by
      rcases p23 root hroot_mem with h | h
      · exact p11 root h
      · exact p21 root h
    refine ⟨?_, ?_, ?_⟩
    · intro nd hnd
      rcases List.mem_append.mp hnd with h | h
      · exact ⟨(p11 nd h).1, (p11 nd h).2.1⟩
      · exact ⟨(p21 nd h).1, (p21 nd h).2.1⟩
    · intro k
      have hchain : (MSet.lk root.sd k).isSome = true ↔
          ∃ s ∈ objSds, (MSet.lk s k).isSome = true := by
        rw [← hplv k, ← p12 k, ← p25 k, hsing]
        rw [presIn_cons]
        constructor
        · intro h
          exact Or.inl h
        · rintro (h | h)
          · exact h
          · exact absurd h (presIn_nil k)
      have hobj_ne : objSds ≠ [] := by
        intro hobj
        have hlv : (objSds.map (fun s => (⟨s, accF s, []⟩ : NL κ G))) = [] := by
          rw [hobj]
          rfl
        have hnls : (phase1 accF pickL1 pickR1 (objSds.map (fun s => (⟨s, accF s, []⟩ : NL κ G))).length (objSds.map (fun s => (⟨s, accF s, []⟩ : NL κ G)))) = [] := p13.mpr hlv
        have hres : (phase2 accF pickL2 pickR2 (phase1 accF pickL1 pickR1 (objSds.map (fun s => (⟨s, accF s, []⟩ : NL κ G))).length (objSds.map (fun s => (⟨s, accF s, []⟩ : NL κ G)))).length (phase1 accF pickL1 pickR1 (objSds.map (fun s => (⟨s, accF s, []⟩ : NL κ G))).length (objSds.map (fun s => (⟨s, accF s, []⟩ : NL κ G))))).2 = [] := p24.mpr hnls
        rw [hres] at hsing
        cases hsing
      rw [MSet.lk_foldl_union objSds MSet.empty k, if_neg hobj_ne]
      by_cases hc : ∃ s ∈ objSds, (MSet.lk s k).isSome = true
      · have hcc : (MSet.lk MSet.empty k).isSome = true ∨
            ∃ s ∈ objSds, (MSet.lk s k).isSome = true := Or.inr hc
        rw [if_pos hcc]
        have hp : (MSet.lk root.sd k).isSome = true := hchain.mpr hc
        rcases hprops.2.2 k with h | h
        · rw [h] at hp
          cases hp
        · exact h
      · have hcc : ¬ ((MSet.lk MSet.empty k).isSome = true ∨
            ∃ s ∈ objSds, (MSet.lk s k).isSome = true) := by
          rintro (h | h)
          · cases h
          · exact hc h
        rw [if_neg hcc]
        have hp : ¬ (MSet.lk root.sd k).isSome = true := fun h => hc (hchain.mp h)
        exact Option.not_isSome_iff_eq_none.mp hp
    · intro hobj
      have hlv : (objSds.map (fun s => (⟨s, accF s, []⟩ : NL κ G))) = [] := by
        rw [hobj]
        rfl
      have hnls : (phase1 accF pickL1 pickR1 (objSds.map (fun s => (⟨s, accF s, []⟩ : NL κ G))).length (objSds.map (fun s => (⟨s, accF s, []⟩ : NL κ G)))) = [] := p13.mpr hlv
      have hres : (phase2 accF pickL2 pickR2 (phase1 accF pickL1 pickR1 (objSds.map (fun s => (⟨s, accF s, []⟩ : NL κ G))).length (objSds.map (fun s => (⟨s, accF s, []⟩ : NL κ G)))).length (phase1 accF pickL1 pickR1 (objSds.map (fun s => (⟨s, accF s, []⟩ : NL κ G))).length (objSds.map (fun s => (⟨s, accF s, []⟩ : NL κ G))))).2 = [] := p24.mpr hnls
      rw [hres] at hsing
      cases hsing


theorem ones_single {κ : Type} [DecidableEq κ] (a : κ) :
    ones (⟨[(a, 1)]⟩ : MSet κ) := by
  intro k
  show MSet.lkL [(a, 1)] k = none ∨ MSet.lkL [(a, 1)] k = some 1
  rw [MSet.lkL_cons]
  by_cases h : a = k
  · rw [if_pos h]
    exact Or.inr rfl
  · rw [if_neg h]
    exact Or.inl rfl

/-- Example object sets for the intra-index claim: two objects with single
distinct keys. -/
def exObjSds : List (MSet ℕ) := [⟨[(1, 1)]⟩, ⟨[(2, 1)]⟩]

/-- C7 witness: the theorem applied to a concrete two-object block with the
constant-zero pick functions. -/
theorem C7_intra_index_witness :
    (∀ s ∈ exObjSds, ones s) ∧
    MSet.sameAs (buildIntra (fun s : MSet ℕ => s) (fun _ => 0) (fun _ => 0)
        (fun _ _ => 0) (fun _ _ => 0) exObjSds).2.sd
      (exObjSds.foldl MSet.union MSet.empty) := by
  have hones : ∀ s ∈ exObjSds, ones s := by
    intro s hs
    rcases List.mem_cons.mp hs with rfl | hs2
    · exact ones_single 1
    · rcases List.mem_cons.mp hs2 with rfl | hs3
      · exact ones_single 2
      · exact absurd hs3 (List.not_mem_nil s)
  exact ⟨hones, (C7_intra_index (fun s => s) (fun _ => 0) (fun _ => 0)
    (fun _ _ => 0) (fun _ _ => 0) exObjSds hones).2.1⟩


/-! ## Query layer (`src/src/chain/query.rs`) -/

/-- `SetElementType` (`src/src/chain/object.rs`); `u32` fields as naturals
below `2^32`. -/
inductive SetElementType
  | V (dim val mask : ℕ)
  | W (w : String)
deriving DecidableEq

/-- `!x` on `u32` (operands stay below `2^32` throughout the loop). -/
def u32not (x : ℕ) : ℕ := 4294967295 - x

/-- `x << b` on `u32`. -/
def u32shl (x b : ℕ) : ℕ := (x * 2 ^ b) % 4294967296

/-- The `while let Some((mask, left)) = queue.pop_front()` BFS of
`Range::to_bool_exp`, with explicit fuel (`none` on exhaustion; the claims
are settled at fuels large enough for the loop to drain its queue). -/
def rangeLoop (bl l r dim : ℕ) :
    ℕ → List (ℕ × ℕ) → MSet SetElementType → Option (MSet SetElementType)
  | _, [], sd => some sd
  | 0, _ :: _, _ => none
  | fuel + 1, (mask, left) :: rest, sd =>
    let mask_inv := u32not mask
    let right := left ||| mask_inv
    if l ≤ left ∧ right ≤ r then
      let mask2 := if bl < 32 then mask &&& u32not (u32shl 4294967295 bl) else mask
      rangeLoop bl l r dim fuel rest
        (sd.insertVal (SetElementType.V dim left mask2) 1)
    else if right < l ∨ r < left then
      rangeLoop bl l r dim fuel rest sd
    else
      let new_mask := u32not (mask_inv / 2)
      rangeLoop bl l r dim fuel
        (rest ++ [(new_mask, left), (new_mask, left ||| (new_mask &&& mask_inv))]) sd

/-- The `for (i, range) in self[0].iter().zip(self[1].iter()).enumerate()`
loop: a dimension with a `null` bound is skipped (`continue`), otherwise the
BFS set is pushed. -/
def rangeDimsAux (bit_len : List ℕ) :
    ℕ → List (Option ℕ × Option ℕ) → Option (List (MSet SetElementType))
  | _, [] => some []
  | i, (lo, hi) :: rest =>
    match lo, hi with
    | some l, some r =>
      match rangeLoop (bit_len.getD i 0) l r i 1000 [(0, 0)] MSet.empty with
      | none => none
      | some sd => (rangeDimsAux bit_len (i + 1) rest).map (fun tail => sd :: tail)
    | _, _ => rangeDimsAux bit_len (i + 1) rest

/-- `Range::to_bool_exp`. -/
def range_to_bool_exp (p1 p2 : List (Option ℕ)) (bit_len : List ℕ) :
    Option (List (MSet SetElementType)) :=
  rangeDimsAux bit_len 0 (p1.zip p2)

/-- `Query` (`start_block`, `end_block`, `q_range`, `q_bool`). -/
structure Query where
  start_block : ℕ
  end_block : ℕ
  q_range : Option (List (Option ℕ) × List (Option ℕ))
  q_bool : Option (List (List String))

/-- `Query::to_bool_exp`: the range sets (if any) followed by one set of `W`
elements per `q_bool` conjunct. -/
def Query.to_bool_exp (q : Query) (bit_len : List ℕ) :
    Option (List (MSet SetElementType)) :=
  match (match q.q_range with
         | none => some []
         | some p => range_to_bool_exp p.1 p.2 bit_len) with
  | none => none
  | some l =>
    match q.q_bool with
    | none => some l
    | some bs =>
      some (l ++ bs.map (fun ws => MSet.fromElems (ws.map SetElementType.W)))

/-- `BoolExp::mismatch_idx`: index of the first sub-set not intersecting the
probed set. -/
def mismatch_idx {α : Type} [DecidableEq α] (exp : List (MSet α)) (s : MSet α) :
    Option ℕ :=
  exp.findIdx? (fun t => ! MSet.is_intersected_with t s)

/-- `BoolExp::is_match`. -/
def is_match {α : Type} [DecidableEq α] (exp : List (MSet α)) (s : MSet α) : Bool :=
  (mismatch_idx exp s).isNone

/-- `HashMap` equality can be checked on the two entry lists. -/
theorem sameAs_of_entries {α : Type} [DecidableEq α] (a b : MSet α)
    (h1 : ∀ e ∈ a.entries, MSet.lk b e.1 = MSet.lk a e.1)
    (h2 : ∀ e ∈ b.entries, MSet.lk a e.1 = MSet.lk b e.1) : MSet.sameAs a b := by
  intro k
  by_cases ha : (MSet.lk a k).isSome = true
  · have hk : k ∈ MSet.keysOf a.entries := (MSet.mem_keysOf_iff _ _).mpr ha
    obtain ⟨e, he, hek⟩ := List.mem_map.mp hk
    rw [← hek]
    exact (h1 e he).symm
  · by_cases hb : (MSet.lk b k).isSome = true
    · have hk : k ∈ MSet.keysOf b.entries := (MSet.mem_keysOf_iff _ _).mpr hb
      obtain ⟨e, he, hek⟩ := List.mem_map.mp hk
      rw [← hek]
      exact h2 e he
    · rw [Option.not_isSome_iff_eq_none.mp ha, Option.not_isSome_iff_eq_none.mp hb]

/-- C8: `Range::to_bool_exp` on `[[0, null, 3], [6, null, 4]]` with
`bit_len = [3, 3, 3]` returns exactly the two claimed sets in order, and a
dimension with a `null` bound contributes no set. -/
theorem C8_range_to_bool_exp :
    (∃ sA sB,
      range_to_bool_exp [some 0, none, some 3] [some 6, none, some 4] [3, 3, 3] =
        some [sA, sB] ∧
      MSet.sameAs sA (MSet.fromElems [SetElementType.V 0 0 4,
        SetElementType.V 0 4 6, SetElementType.V 0 6 7]) ∧
      MSet.sameAs sB (MSet.fromElems [SetElementType.V 2 3 7,
        SetElementType.V 2 4 7])) ∧
    (∀ (bit_len : List ℕ) (i : ℕ) (lo hi : Option ℕ)
        (rest : List (Option ℕ × Option ℕ)),
      lo = none ∨ hi = none →
      rangeDimsAux bit_len i ((lo, hi) :: rest) = rangeDimsAux bit_len (i + 1) rest) := by
  constructor
  · refine ⟨⟨[(SetElementType.V 0 0 4, 1), (SetElementType.V 0 4 6, 1),
      (SetElementType.V 0 6 7, 1)]⟩,
      ⟨[(SetElementType.V 2 3 7, 1), (SetElementType.V 2 4 7, 1)]⟩,
      by decide, ?_, ?_⟩
    · exact sameAs_of_entries _ _ (by decide) (by decide)
    · exact sameAs_of_entries _ _ (by decide) (by decide)
  · intro bit_len i lo hi rest h
    rcases h with rfl | rfl
    · cases hi <;> rfl
    · cases lo <;> rfl

/-- C8 witness for the null-bound clause, at a concrete skipped dimension. -/
theorem C8_range_to_bool_exp_witness :
    ((none : Option ℕ) = none ∨ (some 5 : Option ℕ) = none) ∧
    rangeDimsAux [3] 0 [((none : Option ℕ), (some 5 : Option ℕ))] =
      rangeDimsAux [3] 1 [] :=
  ⟨Or.inl rfl,
   C8_range_to_bool_exp.2 [3] 0 none (some 5) [] (Or.inl rfl)⟩

/-- C10: a query with `q_range = None` and `q_bool = None` produces a
`BoolExp` with no sub-sets, whose `mismatch_idx` is `None` and whose
`is_match` is `true` on every multiset. -/
theorem C10_empty_query (sb eb : ℕ) (bit_len : List ℕ) (S : MSet SetElementType) :
    Query.to_bool_exp ⟨sb, eb, none, none⟩ bit_len = some [] ∧
    mismatch_idx ([] : List (MSet SetElementType)) S = none ∧
    is_match ([] : List (MSet SetElementType)) S = true :=
  ⟨rfl, rfl, rfl⟩


/-! ## Claim theorems for the accumulator layer -/

/-- ACC2 half of the disjoint-sets completeness claim: proof generation
succeeds and the pairing equation holds, under the digest-value bounds the
source guarantees (digest values fit 248 bits while `PUB_Q` has 250, so the
`Q + a - b` exponents never wrap). -/
theorem acc2_gen_verify {r : ℕ} [NeZero r] (s Q : ZMod r) (A B : List (ZMod r × ℕ))
    (Bd : ℕ) (hBA : ∀ e ∈ A, e.1.val ≤ Bd) (hBB : ∀ e ∈ B, e.1.val ≤ Bd)
    (hQ1 : Bd ≤ Q.val) (hQ2 : Q.val + Bd < r)
    (hdisj : ∀ e1 ∈ A, ∀ e2 ∈ B, e1.1 ≠ e2.1) :
    ∃ pf, Acc2.gen_proof s Q A B = .ok pf ∧
      pf.verify (Acc2.cal_acc_g1_d s A) (Acc2.cal_acc_g2_d s Q B) = true := by
  refine ⟨_, Acc2.gen_proof_ok_of_disjoint s Q A B hdisj, ?_⟩
  unfold Acc2Proof.verify
  rw [decide_eq_true_eq]
  exact Acc2.pair_eq s Q A B Bd hBA hBB hQ1 hQ2

/-- C1: the ACC2 half holds (disjoint sets give a proof that verifies), but
the ACC1 half is broken by the `poly_to_g1`/`poly_to_g2` index bug: over the
101-element field with `s = 2`, the disjoint sets `A = {3}` and
`B = {1, 100}` produce a proof that `gen_proof` accepts, yet
`verify(ACC_g1(A), ACC_g1(B))` is `false` — the expanded polynomial of `B`
is `x² + 100` whose zero coefficient makes the MSM pair scalars with the
wrong bases.  With the (correct) secret-key accumulators the same proof
verifies, isolating the bug in the public-key path. -/
theorem C1_disjoint_proof_verifies :
    (∀ (r : ℕ) [NeZero r] (s Q : ZMod r) (A B : List (ZMod r × ℕ)) (Bd : ℕ),
      (∀ e ∈ A, e.1.val ≤ Bd) → (∀ e ∈ B, e.1.val ≤ Bd) →
      Bd ≤ Q.val → Q.val + Bd < r →
      (∀ e1 ∈ A, ∀ e2 ∈ B, e1.1 ≠ e2.1) →
      ∃ pf, Acc2.gen_proof s Q A B = .ok pf ∧
        pf.verify (Acc2.cal_acc_g1_d s A) (Acc2.cal_acc_g2_d s Q B) = true) ∧
    ((∀ e1 ∈ [((3 : F101), 1)], ∀ e2 ∈ [((1 : F101), 1), ((100 : F101), 1)],
        e1.1 ≠ e2.1) ∧
     ∃ pf, Acc1.gen_proof (2 : F101) [((3 : F101), 1)]
          [((1 : F101), 1), ((100 : F101), 1)] = .ok pf ∧
       pf.verify (Acc1.cal_acc_g1_d (2 : F101) [((3 : F101), 1)])
         (Acc1.cal_acc_g1_d (2 : F101) [((1 : F101), 1), ((100 : F101), 1)]) = false ∧
       pf.verify (Acc1.cal_acc_g1_sk_d (2 : F101) [((3 : F101), 1)])
         (Acc1.cal_acc_g1_sk_d (2 : F101) [((1 : F101), 1), ((100 : F101), 1)]) =
           true) := by
  constructor
  · intro r _ s Q A B Bd hBA hBB hQ1 hQ2 hdisj
    exact acc2_gen_verify s Q A B Bd hBA hBB hQ1 hQ2 hdisj
  · exact ⟨by decide, ⟨38, 38⟩, rfl, by decide, by decide⟩

/-- C1 witness: the ACC2 conjunct at `r = 101`, `s = 2`, `Q = 50`,
`A = {1}`, `B = {2}`. -/
theorem C1_disjoint_proof_verifies_witness :
    ((∀ e ∈ [((1 : ZMod 101), 1)], e.1.val ≤ 10) ∧
     (∀ e ∈ [((2 : ZMod 101), 1)], e.1.val ≤ 10) ∧
     10 ≤ (50 : ZMod 101).val ∧ (50 : ZMod 101).val + 10 < 101 ∧
     (∀ e1 ∈ [((1 : ZMod 101), 1)], ∀ e2 ∈ [((2 : ZMod 101), 1)], e1.1 ≠ e2.1)) ∧
    (∃ pf, Acc2.gen_proof (2 : ZMod 101) 50 [((1 : ZMod 101), 1)]
        [((2 : ZMod 101), 1)] = .ok pf ∧
      pf.verify (Acc2.cal_acc_g1_d (2 : ZMod 101) [((1 : ZMod 101), 1)])
        (Acc2.cal_acc_g2_d (2 : ZMod 101) 50 [((2 : ZMod 101), 1)]) = true) :=
  ⟨⟨by decide, by decide, by decide, by decide, by decide⟩,
   @C1_disjoint_proof_verifies.1 101 ⟨by norm_num⟩ 2 50 [((1 : ZMod 101), 1)]
     [((2 : ZMod 101), 1)] 10 (by decide) (by decide) (by decide) (by decide)
     (by decide)⟩

/-- C2: non-disjoint sets make both proof generators fail with "cannot
generate proof": ACC1 fails on any shared key (and fails exactly when the
computed gcd has positive degree), ACC2 fails exactly when some product
exponent `Q + a - b` equals `Q`, i.e. some `a ∈ A` equals some `b ∈ B`. -/
theorem C2_nondisjoint_error :
    (∀ (K : Type) [Field K] [DecidableEq K] (s : K) (S1 S2 : List (K × ℕ))
        (k : K) (c1 c2 : ℕ),
        (k, c1) ∈ S1 → (k, c2) ∈ S2 → 1 ≤ c1 → 1 ≤ c2 →
        Acc1.gen_proof s S1 S2 = .error .cannotGenProof) ∧
    (∀ (K : Type) [Field K] [DecidableEq K] (s : K) (S1 S2 : List (K × ℕ))
        (g u v : List K),
        PolyL.xgcd (DigestSet.expand_to_poly S1) (DigestSet.expand_to_poly S2) =
          some (g, u, v) →
        (Acc1.gen_proof s S1 S2 = .error .cannotGenProof ↔ 0 < PolyL.degree g)) ∧
    (∀ (r : ℕ) (s Q : ZMod r) (T1 T2 : List (ZMod r × ℕ)),
        Acc2.gen_proof s Q T1 T2 = .error .cannotGenProof ↔
          ∃ e1 ∈ T1, ∃ e2 ∈ T2, e1.1 = e2.1) := by
  refine ⟨?_, ?_, ?_⟩
  · intro K _ _ s S1 S2 k c1 c2 h1 h2 hc1 hc2
    obtain ⟨g, u, v, hx, heq⟩ := Acc1.gen_proof_eq s S1 S2
    have hpos := Acc1.sharedKey_degree_pos h1 h2 hc1 hc2 hx
    rw [heq, if_pos (by omega : PolyL.degree g ≠ 0)]
  · intro K _ _ s S1 S2 g u v hx
    obtain ⟨g2, u2, v2, hx2, heq⟩ := Acc1.gen_proof_eq s S1 S2
    rw [hx] at hx2
    have e := Option.some.inj hx2
    injection e with e1 e2
    injection e2 with e2 e3
    subst e1
    subst e2
    subst e3
    rw [heq]
    by_cases hd : PolyL.degree g = 0
    · rw [if_neg (by omega : ¬ PolyL.degree g ≠ 0)]
      constructor
      · intro h
        exact Except.noConfusion h
      · intro h
        omega
    · rw [if_pos hd]
      constructor
      · intro _
        omega
      · intro _
        rfl
  · intro r s Q T1 T2
    exact Acc2.gen_proof_error_iff s Q T1 T2

/-- C2 witness: shared-key failure, the gcd-degree characterisation at a
concretely computed gcd, and the ACC2 characterisation, all over 101-element
fields. -/
theorem C2_nondisjoint_error_witness :
    (((3 : F101), 1) ∈ [((3 : F101), 1)] ∧
     Acc1.gen_proof (2 : F101) [((3 : F101), 1)] [((3 : F101), 1)] =
       .error .cannotGenProof) ∧
    (PolyL.xgcd (DigestSet.expand_to_poly [((3 : F101), 1)])
        (DigestSet.expand_to_poly [((4 : F101), 1)]) = some ([1], [100], [1]) ∧
     (Acc1.gen_proof (2 : F101) [((3 : F101), 1)] [((4 : F101), 1)] =
         .error .cannotGenProof ↔ 0 < PolyL.degree ([1] : List F101))) ∧
    (Acc2.gen_proof (2 : ZMod 101) 50 [((3 : ZMod 101), 1)] [((3 : ZMod 101), 1)] =
        .error .cannotGenProof ↔
      ∃ e1 ∈ [((3 : ZMod 101), 1)], ∃ e2 ∈ [((3 : ZMod 101), 1)], e1.1 = e2.1) := by
  refine ⟨⟨by decide, ?_⟩, ⟨by decide, ?_⟩, ?_⟩
  · exact C2_nondisjoint_error.1 F101 2 [((3 : F101), 1)] [((3 : F101), 1)] 3 1 1
      (by decide) (by decide) (by decide) (by decide)
  · exact C2_nondisjoint_error.2.1 F101 2 [((3 : F101), 1)] [((4 : F101), 1)]
      [1] [100] [1] (by decide)
  · exact C2_nondisjoint_error.2.2 101 2 50 [((3 : ZMod 101), 1)] [((3 : ZMod 101), 1)]

/-- C3: the ACC2 public-key and secret-key accumulator paths agree (the two
sums only differ by commuting each multiplication), but the ACC1 paths do
not: over the 101-element field with `s = 2` and `S = {0, 1}` (expanded
polynomial `x² + x`, zero constant coefficient), the secret-key value is
`(2+0)(2+1) = 6` while the public-key MSM gives `2` — `poly_to_g1` computes
the nonzero-coefficient index list `idxes` but then indexes coefficients and
bases by position in `idxes` instead of through it. -/
theorem C3_pk_sk_paths :
    (∀ (r : ℕ) (s : ZMod r) (S : List (ZMod r × ℕ)),
        Acc2.cal_acc_g1_d s S = Acc2.cal_acc_g1_sk_d s S) ∧
    (∀ (r : ℕ) (s Q : ZMod r) (S : List (ZMod r × ℕ)),
        Acc2.cal_acc_g2_d s Q S = Acc2.cal_acc_g2_sk_d s Q S) ∧
    Acc1.cal_acc_g1_sk_d (2 : F101) [(0, 1), (1, 1)] = 6 ∧
    Acc1.cal_acc_g1_d (2 : F101) [(0, 1), (1, 1)] = 2 ∧
    Acc1.cal_acc_g2_sk_d (2 : F101) [(0, 1), (1, 1)] = 6 ∧
    Acc1.cal_acc_g2_d (2 : F101) [(0, 1), (1, 1)] = 2 ∧
    (6 : F101) ≠ 2 := by
  refine ⟨?_, ?_, by decide, by decide, by decide, by decide, by decide⟩
  · intro r s S
    unfold Acc2.cal_acc_g1_d Acc2.cal_acc_g1_sk_d
    congr 1
    apply List.map_congr_left
    intro e _
    ring
  · intro r s Q S
    unfold Acc2.cal_acc_g2_d Acc2.cal_acc_g2_sk_d
    congr 1
    apply List.map_congr_left
    intro e _
    ring

/-- C4 (amended): `try_digest_to_prime_field` zeroes the whole most
significant limb (the claimed byte mask is then a no-op), so the result is
`(BE value mod r) mod 2^192`: below `2^192` — hence also below the claimed
`2^248` — and the map never fails. -/
theorem C4_digest_to_field (d : List ℕ) :
    DigestMap.try_digest_to_prime_field d =
      some (DigestMap.beBytesToNat d % DigestMap.FR_MODULUS % 2 ^ 192) ∧
    DigestMap.beBytesToNat d % DigestMap.FR_MODULUS % 2 ^ 192 < 2 ^ 192 ∧
    DigestMap.beBytesToNat d % DigestMap.FR_MODULUS % 2 ^ 192 < 2 ^ 248 := by
  have hn : DigestMap.beBytesToNat d % DigestMap.FR_MODULUS < DigestMap.FR_MODULUS :=
    Nat.mod_lt _ (by norm_num [DigestMap.FR_MODULUS])
  have hz := DigestMap.natOfLimbs_zeroed (DigestMap.beBytesToNat d %
    DigestMap.FR_MODULUS) hn
  have hlt : DigestMap.beBytesToNat d % DigestMap.FR_MODULUS % 2 ^ 192 < 2 ^ 192 :=
    Nat.mod_lt _ (by norm_num)
  refine ⟨?_, hlt, lt_trans hlt (by norm_num)⟩
  show (if DigestMap.natOfLimbs (DigestMap.maskLimb3 (DigestMap.zeroLimbsFrom3
      (DigestMap.limbsOf (DigestMap.beBytesToNat d % DigestMap.FR_MODULUS)))) <
      DigestMap.FR_MODULUS
    then some (DigestMap.natOfLimbs (DigestMap.maskLimb3 (DigestMap.zeroLimbsFrom3
      (DigestMap.limbsOf (DigestMap.beBytesToNat d % DigestMap.FR_MODULUS)))))
    else none) =
    some (DigestMap.beBytesToNat d % DigestMap.FR_MODULUS % 2 ^ 192)
  rw [hz, if_pos (lt_trans hlt (by norm_num [DigestMap.FR_MODULUS]))]

/-- The 32-byte digest whose big-endian value is `2^192` (byte 7 set to 1). -/
def exDigest : List ℕ := List.replicate 7 0 ++ 1 :: List.replicate 24 0

/-- C4 counterexample to the claimed computation: on the digest with value
`2^192` the code returns `0` (whole top limb zeroed), while clearing only the
top byte of the most significant limb — the claim's description — keeps
`2^192`. -/
theorem C4_digest_to_field_counterexample :
    DigestMap.try_digest_to_prime_field exDigest = some 0 ∧
    DigestMap.specDigestToField exDigest = some (2 ^ 192) ∧
    DigestMap.try_digest_to_prime_field exDigest ≠
      DigestMap.specDigestToField exDigest := by
  refine ⟨by decide, by decide, by decide⟩

/-- C6: ACC2 proofs for a common `A` against `B` and `C` combine additively:
`combine_proof` adds the `f` components, and the combined proof verifies
against `ACC_g1(A)` and `ACC_g2(B) + ACC_g2(C)` (under the digest-value
bounds the 248-bit digests guarantee against the 250-bit `PUB_Q`). -/
theorem C6_combine_proof {r : ℕ} [NeZero r] (s Q : ZMod r)
    (A B C : List (ZMod r × ℕ)) (Bd : ℕ)
    (hBA : ∀ e ∈ A, e.1.val ≤ Bd) (hBB : ∀ e ∈ B, e.1.val ≤ Bd)
    (hBC : ∀ e ∈ C, e.1.val ≤ Bd) (hQ1 : Bd ≤ Q.val) (hQ2 : Q.val + Bd < r)
    (hdAB : ∀ e1 ∈ A, ∀ e2 ∈ B, e1.1 ≠ e2.1)
    (hdAC : ∀ e1 ∈ A, ∀ e2 ∈ C, e1.1 ≠ e2.1) :
    ∃ p1 p2, Acc2.gen_proof s Q A B = .ok p1 ∧ Acc2.gen_proof s Q A C = .ok p2 ∧
      (p1.combine_proof p2).verify (Acc2.cal_acc_g1_d s A)
        (Acc2.cal_acc_g2_d s Q B + Acc2.cal_acc_g2_d s Q C) = true := by
  refine ⟨_, _, Acc2.gen_proof_ok_of_disjoint s Q A B hdAB,
    Acc2.gen_proof_ok_of_disjoint s Q A C hdAC, ?_⟩
  unfold Acc2Proof.verify Acc2Proof.combine_proof
  rw [decide_eq_true_eq]
  rw [mul_add, Acc2.pair_eq s Q A B Bd hBA hBB hQ1 hQ2,
    Acc2.pair_eq s Q A C Bd hBA hBC hQ1 hQ2]

/-- C6 witness at `r = 101`, `s = 2`, `Q = 50`, `A = {1}`, `B = {2}`,
`C = {3}`. -/
theorem C6_combine_proof_witness :
    ((∀ e ∈ [((1 : ZMod 101), 1)], e.1.val ≤ 10) ∧
     (∀ e ∈ [((2 : ZMod 101), 1)], e.1.val ≤ 10) ∧
     (∀ e ∈ [((3 : ZMod 101), 1)], e.1.val ≤ 10) ∧
     10 ≤ (50 : ZMod 101).val ∧ (50 : ZMod 101).val + 10 < 101 ∧
     (∀ e1 ∈ [((1 : ZMod 101), 1)], ∀ e2 ∈ [((2 : ZMod 101), 1)], e1.1 ≠ e2.1) ∧
     (∀ e1 ∈ [((1 : ZMod 101), 1)], ∀ e2 ∈ [((3 : ZMod 101), 1)], e1.1 ≠ e2.1)) ∧
    (∃ p1 p2, Acc2.gen_proof (2 : ZMod 101) 50 [((1 : ZMod 101), 1)]
        [((2 : ZMod 101), 1)] = .ok p1 ∧
      Acc2.gen_proof (2 : ZMod 101) 50 [((1 : ZMod 101), 1)]
        [((3 : ZMod 101), 1)] = .ok p2 ∧
      (p1.combine_proof p2).verify
        (Acc2.cal_acc_g1_d (2 : ZMod 101) [((1 : ZMod 101), 1)])
        (Acc2.cal_acc_g2_d (2 : ZMod 101) 50 [((2 : ZMod 101), 1)] +
          Acc2.cal_acc_g2_d (2 : ZMod 101) 50 [((3 : ZMod 101), 1)]) = true) :=
  ⟨⟨by decide, by decide, by decide, by decide, by decide, by decide, by decide⟩,
   @C6_combine_proof 101 ⟨by norm_num⟩ 2 50 [((1 : ZMod 101), 1)]
     [((2 : ZMod 101), 1)] [((3 : ZMod 101), 1)] 10 (by decide) (by decide)
     (by decide) (by decide) (by decide) (by decide) (by decide)⟩

/-- C9: `expand_to_poly` produces `∏ (x + kᵢ)^{cᵢ}` with the empty set giving
the constant `1`, its degree is the total multiplicity, and on
`{(1,2),(2,1),(3,1)}` the coefficients are `[6, 17, 17, 7, 1]` low-to-high. -/
theorem C9_expand_to_poly {K : Type} [Field K] [DecidableEq K] (S : List (K × ℕ)) :
    PolyL.toPoly (DigestSet.expand_to_poly S) =
      (S.map (fun e => (Polynomial.X + Polynomial.C e.1) ^ e.2)).prod ∧
    PolyL.degree (DigestSet.expand_to_poly S) = (S.map (fun e => e.2)).sum ∧
    DigestSet.expand_to_poly ([] : List (K × ℕ)) = [1] ∧
    DigestSet.expand_to_poly [((1 : F101), 2), (2, 1), (3, 1)] = [6, 17, 17, 7, 1] :=
  ⟨DigestSet.toPoly_expand S, DigestSet.degree_expand S, rfl, by decide⟩

end VChainProof
